import Mathlib

/-!
Verification model of the prefix-caching KV block manager (block pool,
free-block queue, hash chain, cache coordinator and KV cache manager).
The manager implementation itself is not part of the source tree here (only
its test suite is), so the definitions below are modelled from the
specification, with the few behaviors the specification leaves open pinned
to what the repository's test suite asserts.  Machine integers are modelled
as `Nat` (no overflow is relevant to any property below), fallible
operations return `Option`, and all state is passed explicitly.
-/

namespace KVSpec

/-- Slot ids (block ids) are small integers; slot 0 is the null block. -/
abbrev Slot := Nat

/-- Token ids. -/
abbrev Token := Nat

/-- Modelled from the spec: a block fingerprint is the output of a
deterministic Merkle-like chain `H(parent, tokens_k, extras_k)`.  The spec
treats the hash as an opaque deterministic fingerprint (no claim depends on
collisions), so the hash value is modelled as the full chain content: the
list of `(token window, extra keys)` entries for blocks `0..k`.  The parent
of a chain is its `dropLast`, and the sentinel parent of block 0 is the
empty chain. -/
abbrev Fp := List (List Token × List String)

/-- Modelled from the spec: `BlockHashWithGroupId` - a fingerprint paired
with a small cache-group index, keeping per-group fingerprint spaces
disjoint. -/
abbrev FpG := Fp × Nat

/-- Modelled from the spec: a multimodal placeholder range with its content
hash (`offset`, `length`, opaque hash string). -/
structure MMPlaceholder where
  offset : Nat
  length : Nat
  mmHash : String
deriving DecidableEq, Repr

/-- Modelled from the spec: the request attributes the core sees - an opaque
request id, the token sequence, multimodal placeholder ranges, an optional
cache salt, and the `skip_caching` flag (true when prompt log-probabilities
are requested). -/
structure Request where
  reqId : String
  tokens : List Token
  mm : List MMPlaceholder
  cacheSalt : Option String
  skipCaching : Bool
deriving DecidableEq, Repr

/-- Modelled from the spec: a cache-group kind, a closed set - full
attention, or sliding window with a window of `w` tokens. -/
inductive GroupKind where
  | full : GroupKind
  | sliding (w : Nat) : GroupKind
deriving DecidableEq, Repr

/-- Modelled from the spec: the event records - `BlockStored` (batched
fingerprints, covered token ids, block size), `BlockRemoved` (fingerprints),
`AllBlocksCleared`. -/
inductive KVEvent where
  | stored (hashes : List Fp) (tokenIds : List Token) (blockSize : Nat) : KVEvent
  | removed (hashes : List Fp) : KVEvent
  | cleared : KVEvent
deriving DecidableEq, Repr

/-! ### Hash chain -/

/-- Tokens covered by block `k` (0-indexed): positions `k*B .. (k+1)*B - 1`. -/
def blockTokens (B : Nat) (toks : List Token) (k : Nat) : List Token :=
  (toks.drop (k * B)).take B

/-- Modelled from the spec: the ordered extra-key tuple of block `k` - the
cache salt for the first block only, then the content hash of every
multimodal placeholder whose span intersects block `k`, in order of
appearance. -/
def extraKeys (B : Nat) (mm : List MMPlaceholder) (salt : Option String) (k : Nat) :
    List String :=
  (if k = 0 then salt.toList else []) ++
    ((mm.filter (fun p => decide (p.offset < (k + 1) * B ∧ k * B < p.offset + p.length))).map
      (fun p => p.mmHash))

/-- Chain entry of block `k` for a request: its token window and extras. -/
def blockEntry (B : Nat) (r : Request) (k : Nat) : List Token × List String :=
  (blockTokens B r.tokens k, extraKeys B r.mm r.cacheSalt k)

/-- Fingerprint of block `k` of a request: the chain of entries `0..k`
(`H(parent, tokens_k, extras_k)` with the parent being the chain `0..k-1`). -/
def blockFp (B : Nat) (r : Request) (k : Nat) : Fp :=
  (List.range (k + 1)).map (blockEntry B r)

/-- Fingerprints of all full blocks implied by the request's token length. -/
def reqHashes (B : Nat) (r : Request) : List Fp :=
  (List.range (r.tokens.length / B)).map (blockFp B r)

/-! ### Manager state -/

/-- Pointwise update of a refcount / fingerprint table. -/
def setAt {α : Type} (f : Nat → α) (s : Nat) (v : α) : Nat → α :=
  fun t => if t = s then v else f t

/-- Modelled from the spec: the whole manager state - block pool (refcounts,
per-slot fingerprints, free-block queue front-to-back, fingerprint index as
a multi-map from `(fingerprint, group)` to slots), event queue, the closed
configuration flags, and the per-request tables (blocks per group, memoized
block hashes).  The free list is modelled with eager removal, which the
spec explicitly allows; `num_free` is the queue length. -/
structure Manager where
  numBlocks : Nat
  blockSize : Nat
  groups : List GroupKind
  refCnt : Slot → Nat
  fps : Slot → Option FpG
  queue : List Slot
  index : List (FpG × Slot)
  events : List KVEvent
  enableCaching : Bool
  enableEvents : Bool
  useEagle : Bool
  reqBlocks : List (String × List (List Slot))
  reqHashTbl : List (String × List Fp)

/-- Modelled from the spec: pool construction - every non-null block free in
slot-id order, the null block (slot 0) with its refcount pinned at 1 and
never on the free list. -/
def initManager (N B : Nat) (gs : List GroupKind)
    (caching events eagle : Bool) : Manager where
  numBlocks := N
  blockSize := B
  groups := gs
  refCnt := fun s => if s = 0 then 1 else 0
  fps := fun _ => none
  queue := (List.range N).drop 1
  index := []
  events := []
  enableCaching := caching
  enableEvents := events
  useEagle := eagle
  reqBlocks := []
  reqHashTbl := []

/-- Association-table update: replace any entry for key `k` by `(k, v)`. -/
def setEntry {α : Type} (tbl : List (String × α)) (k : String) (v : α) :
    List (String × α) :=
  (k, v) :: tbl.filter (fun e => decide (e.1 ≠ k))

/-- Association-table removal. -/
def removeEntry {α : Type} (tbl : List (String × α)) (k : String) :
    List (String × α) :=
  tbl.filter (fun e => decide (e.1 ≠ k))

/-! ### Prefix-hit detection -/

/-- Slots currently registered in the index for fingerprint `f` in group `g`. -/
def cachedSlotsFor (idx : List (FpG × Slot)) (f : Fp) (g : Nat) : List Slot :=
  idx.filterMap (fun e => if e.1.1 = f ∧ e.1.2 = g then some e.2 else none)

/-- Fingerprint `f` is cached in group `g`. -/
def isCached (idx : List (FpG × Slot)) (f : Fp) (g : Nat) : Prop :=
  cachedSlotsFor idx f g ≠ []

instance (idx : List (FpG × Slot)) (f : Fp) (g : Nat) :
    Decidable (isCached idx f g) :=
  inferInstanceAs (Decidable (_ ≠ _))

/-- Modelled from the spec: `get_cached_block` returns the lowest slot id
that carries the fingerprint (deterministic across calls). -/
def lowestCached (idx : List (FpG × Slot)) (f : Fp) (g : Nat) : Option Slot :=
  (cachedSlotsFor idx f g).min?

/-- Fingerprint of position `i` in a hash list (default: empty chain, which
is never a real block fingerprint). -/
def fpAt (hs : List Fp) (i : Nat) : Fp := hs.getD i []

/-- Modelled from the spec: block position `i` lies entirely outside the
window of `w` tokens at candidate prefix length `p` blocks - its tokens
`[i*B, (i+1)*B)` end at or before `p*B - w`. -/
def outsideWindow (B w i p : Nat) : Prop := (i + 1) * B + w ≤ p * B

instance (B w i p : Nat) : Decidable (outsideWindow B w i p) :=
  inferInstanceAs (Decidable (_ ≤ _))

/-- Modelled from the spec: group `g` of kind `k` can serve block position
`i` of a candidate `p`-block prefix - full attention needs the fingerprint
cached in the group; a sliding-window group also accepts a position outside
the window (the null block suffices there). -/
def canServePos (idx : List (FpG × Slot)) (B : Nat) (hs : List Fp)
    (g : Nat) (k : GroupKind) (i p : Nat) : Prop :=
  match k with
  | .full => isCached idx (fpAt hs i) g
  | .sliding w => isCached idx (fpAt hs i) g ∨ outsideWindow B w i p

instance (idx : List (FpG × Slot)) (B : Nat) (hs : List Fp)
    (g : Nat) (k : GroupKind) (i p : Nat) :
    Decidable (canServePos idx B hs g k i p) :=
  match k with
  | .full => inferInstanceAs (Decidable (isCached idx (fpAt hs i) g))
  | .sliding w =>
      inferInstanceAs (Decidable (isCached idx (fpAt hs i) g ∨ outsideWindow B w i p))

/-- Group `g` of kind `k` can serve every position of the `p`-block prefix. -/
def canServe (idx : List (FpG × Slot)) (B : Nat) (hs : List Fp)
    (g : Nat) (k : GroupKind) (p : Nat) : Prop :=
  ∀ i, i < p → canServePos idx B hs g k i p

instance (idx : List (FpG × Slot)) (B : Nat) (hs : List Fp)
    (g : Nat) (k : GroupKind) (p : Nat) :
    Decidable (canServe idx B hs g k p) :=
  inferInstanceAs (Decidable (∀ i, i < p → canServePos idx B hs g k i p))

/-- Every cache group can serve the `p`-block prefix. -/
def allServe (idx : List (FpG × Slot)) (B : Nat) (gs : List GroupKind)
    (hs : List Fp) (p : Nat) : Prop :=
  ∀ g, (h : g < gs.length) → canServe idx B hs g (gs.get ⟨g, h⟩) p

instance (idx : List (FpG × Slot)) (B : Nat) (gs : List GroupKind)
    (hs : List Fp) (p : Nat) : Decidable (allServe idx B gs hs p) :=
  inferInstanceAs (Decidable (∀ g, (h : g < gs.length) → _))

/-- Modelled from the spec: the combined hit of the CacheCoordinator - the
largest `p` (at most `maxB`) such that every group can serve blocks
`0..p-1`. -/
def hitLen (idx : List (FpG × Slot)) (B : Nat) (gs : List GroupKind)
    (hs : List Fp) (maxB : Nat) : Nat :=
  Nat.findGreatest (allServe idx B gs hs) maxB

/-- Modelled from the spec: the Eagle (speculative-decoding) hit - the last
hit block must be recomputed, so the prefix one block longer than the
returned hit must also be servable by every group; the returned hit is the
largest `p` with both the `p`-block and the `(p+1)`-block prefixes servable
(for full-attention groups this is exactly the plain hit decremented by
one; in sliding-window groups it can drop further, as the repository's
test suite pins down). -/
def hitLenEagle (idx : List (FpG × Slot)) (B : Nat) (gs : List GroupKind)
    (hs : List Fp) (maxB : Nat) : Nat :=
  Nat.findGreatest
    (fun p => allServe idx B gs hs p ∧ allServe idx B gs hs (p + 1)) (maxB - 1)

/-- Modelled from the spec: the per-group block list serving a `p`-block hit
- position `i` holds the null block (slot 0) when it is outside a sliding
window at prefix length `p`, and otherwise the lowest slot cached for the
position's fingerprint in this group. -/
def servedList (idx : List (FpG × Slot)) (B : Nat) (hs : List Fp)
    (g : Nat) (k : GroupKind) (p : Nat) : List Slot :=
  (List.range p).map (fun i =>
    match k with
    | .full => (lowestCached idx (fpAt hs i) g).getD 0
    | .sliding w =>
        if outsideWindow B w i p then 0
        else (lowestCached idx (fpAt hs i) g).getD 0)

/-- Number of block positions eligible for matching: all full blocks, minus
the final one when the token count is an exact multiple of the block size
(the repository's test suite pins this down: at least one token must remain
to be computed, so the last full-block hash is dropped from matching). -/
def matchableBlocks (B : Nat) (r : Request) (hs : List Fp) : Nat :=
  if B ∣ r.tokens.length then hs.length - 1 else hs.length

/-- Modelled from the spec: the pure part of `get_computed_blocks` - compute
the request's block fingerprints, find the combined hit `p` across groups
(with the Eagle decrement when enabled), and return the per-group block
lists truncated to `p` together with `num_computed_tokens = p * B`. -/
def computeHit (idx : List (FpG × Slot)) (B : Nat) (gs : List GroupKind)
    (eagle : Bool) (r : Request) : List (List Slot) × Nat :=
  let hs := reqHashes B r
  let maxB := matchableBlocks B r hs
  let p := if eagle then hitLenEagle idx B gs hs maxB else hitLen idx B gs hs maxB
  (List.ofFn (fun g : Fin gs.length => servedList idx B hs g (gs.get g) p), p * B)

/-- Modelled from the spec: `get_computed_blocks` - a `skip_caching` request
or a disabled cache yields no hit and records zero block hashes; otherwise
the hit is computed from the fingerprint index and the request's hashes are
recorded in the per-request table. -/
def getComputedBlocks (st : Manager) (r : Request) :
    (List (List Slot) × Nat) × Manager :=
  if r.skipCaching || !st.enableCaching then
    ((st.groups.map (fun _ => []), 0),
      { st with reqHashTbl := setEntry st.reqHashTbl r.reqId [] })
  else
    (computeHit st.index st.blockSize st.groups st.useEagle r,
      { st with reqHashTbl := setEntry st.reqHashTbl r.reqId (reqHashes st.blockSize r) })

/-! ### Block pool mutations -/

/-- Modelled from the spec: `touch` one block - if its refcount was 0 remove
it from the free list, then increment the refcount.  The null block is never
touched. -/
def touchOne (st : Manager) (s : Slot) : Manager :=
  if s = 0 then st
  else
    { st with
      refCnt := setAt st.refCnt s (st.refCnt s + 1)
      queue := if st.refCnt s = 0 then st.queue.erase s else st.queue }

/-- Modelled from the spec: `_maybe_evict_cached_block` - clear the block's
fingerprint and remove `(fingerprint, slot)` from the index; emit a
`BlockRemoved` event only when no other slot still represents the
fingerprint (and only when events are enabled). -/
def evictFp (st : Manager) (s : Slot) : Manager :=
  match st.fps s with
  | none => st
  | some f =>
      let idx' := st.index.filter (fun e => decide (¬(e.1 = f ∧ e.2 = s)))
      let ev :=
        if st.enableEvents && idx'.all (fun e => decide (e.1 ≠ f)) then
          [KVEvent.removed [f.1]]
        else []
      { st with fps := setAt st.fps s none, index := idx', events := st.events ++ ev }

/-- Pop one block from the free-queue front: evict its cached fingerprint if
any, and pre-bump its refcount to 1. -/
def popOne (st : Manager) : Manager × Option Slot :=
  match st.queue with
  | [] => (st, none)
  | s :: rest =>
      let st1 := evictFp { st with queue := rest } s
      ({ st1 with refCnt := setAt st1.refCnt s 1 }, some s)

/-- Modelled from the spec: `get_new_blocks n` - pop `n` blocks from the
queue front (the caller checks availability first, so the short-queue case
never arises on the success path). -/
def popN (st : Manager) : Nat → Manager × List Slot
  | 0 => (st, [])
  | n + 1 =>
      match popOne st with
      | (st1, some s) =>
          let r := popN st1 n
          (r.1, s :: r.2)
      | (st1, none) => (st1, [])

/-- Draw the per-group counts of fresh blocks, group by group. -/
def drawGroups (st : Manager) : List Nat → Manager × List (List Slot)
  | [] => (st, [])
  | n :: ns =>
      let r1 := popN st n
      let r2 := drawGroups r1.1 ns
      (r2.1, r1.2 :: r2.2)

/-- One position of `cache_full_blocks`: a non-null block with no
fingerprint yet receives the position's fingerprint, is inserted into the
index, and its fingerprint and covered tokens join the event batch. -/
def cacheStep (B : Nat) (toks : List Token) (hs : List Fp) (g : Nat)
    (slots : List Slot) (acc : Manager × List Fp × List Token) (i : Nat) :
    Manager × List Fp × List Token :=
  if slots.getD i 0 ≠ 0 ∧ acc.1.fps (slots.getD i 0) = none then
    ({ acc.1 with
        fps := setAt acc.1.fps (slots.getD i 0) (some (fpAt hs i, g))
        index := acc.1.index ++ [((fpAt hs i, g), slots.getD i 0)] },
      acc.2.1 ++ [fpAt hs i], acc.2.2 ++ blockTokens B toks i)
  else acc

/-- Modelled from the spec: `cache_full_blocks` for one group - walk the
now-full positions of the request's block list; a block that already
carries a fingerprint is left alone, a fresh one receives the position's
fingerprint and is inserted into the index; the batch of newly stored
fingerprints with their covered token ids is emitted as one `BlockStored`
event (when events are enabled and the batch is non-empty).  The null block
is never indexed. -/
def cacheFullOne (B : Nat) (toks : List Token) (hs : List Fp) (g : Nat)
    (slots : List Slot) (numFull : Nat) (st : Manager) : Manager :=
  let r := (List.range (min numFull slots.length)).foldl
    (cacheStep B toks hs g slots) (st, [], [])
  if r.1.enableEvents && !r.2.1.isEmpty then
    { r.1 with events := r.1.events ++ [KVEvent.stored r.2.1 r.2.2 B] }
  else r.1

/-- Register the newly full blocks of every group. -/
def cacheFullAll (B : Nat) (toks : List Token) (hs : List Fp)
    (lists : List (List Slot)) (numFull : Nat) (st : Manager) : Manager :=
  (List.range lists.length).foldl
    (fun acc g => cacheFullOne B toks hs g (lists.getD g []) numFull acc) st

/-- Per-group block lists the request already owns (empty lists if none). -/
def allocOwned (st : Manager) (r : Request) : List (List Slot) :=
  (st.reqBlocks.lookup r.reqId).getD (st.groups.map fun _ => [])

/-- Per-group counts of fresh blocks needed: the total blocks the request
will occupy after this step, minus blocks already owned and hit blocks. -/
def allocNeeds (st : Manager) (r : Request) (numNew numComputed : Nat)
    (hit : List (List Slot)) : List Nat :=
  (List.range st.groups.length).map (fun g =>
    (numComputed + numNew + st.blockSize - 1) / st.blockSize -
      ((allocOwned st r).getD g []).length - (hit.getD g []).length)

/-- Free-budget demand of an allocation: the fresh blocks needed plus the
hit blocks that currently sit on the free list (reclaiming those shrinks
the free budget too; the repository's test suite pins this down). -/
def allocDemand (st : Manager) (r : Request) (numNew numComputed : Nat)
    (hit : List (List Slot)) : Nat :=
  (allocNeeds st r numNew numComputed hit).sum +
    (hit.flatten.filter (fun s => decide (s ≠ 0) && decide (st.refCnt s = 0))).length

/-- Success path of `allocate_slots`: touch the hit blocks, draw the fresh
slots per group, append everything to the request's per-group block lists,
and register the newly full blocks (emitting events). -/
def allocOk (st : Manager) (r : Request) (numNew numComputed : Nat)
    (hit : List (List Slot)) : Manager × List (List Slot) :=
  let st1 := hit.flatten.foldl touchOne st
  let dr := drawGroups st1 (allocNeeds st r numNew numComputed hit)
  let lists := (List.range st.groups.length).map
    (fun g => (allocOwned st r).getD g [] ++ hit.getD g [] ++ dr.2.getD g [])
  let st3 := { dr.1 with reqBlocks := setEntry dr.1.reqBlocks r.reqId lists }
  let st4 :=
    if st3.enableCaching then
      cacheFullAll st.blockSize r.tokens (reqHashes st.blockSize r) lists
        ((numComputed + numNew) / st.blockSize) st3
    else st3
  (st4, dr.2)

/-- Modelled from the spec: `allocate_slots(R, num_new_tokens,
num_already_computed_tokens, hit_blocks)`.  The free-budget check happens
*before* anything is touched; on failure return `none` with the state
untouched (allocation is all-or-nothing). -/
def allocateSlots (st : Manager) (r : Request) (numNew numComputed : Nat)
    (hit : List (List Slot)) : Manager × Option (List (List Slot)) :=
  if st.queue.length < allocDemand st r numNew numComputed hit then (st, none)
  else
    ((allocOk st r numNew numComputed hit).1,
      some (allocOk st r numNew numComputed hit).2)

/-- Modelled from the spec: `free_one` block - decrement the refcount; a
block reaching 0 is pushed onto the free-list back.  The null block is
skipped. -/
def freeOne (st : Manager) (s : Slot) : Manager :=
  if s = 0 then st
  else
    { st with
      refCnt := setAt st.refCnt s (st.refCnt s - 1)
      queue := if st.refCnt s = 1 then st.queue ++ [s] else st.queue }

/-- Modelled from the spec: `free(R)` - the blocks R holds (all groups) are
freed in reverse order, and the per-request block and fingerprint records
are discarded. -/
def freeReq (st : Manager) (rid : String) : Manager :=
  let L := ((st.reqBlocks.lookup rid).getD []).flatten.reverse
  let st0 :=
    { st with
      reqBlocks := removeEntry st.reqBlocks rid
      reqHashTbl := removeEntry st.reqHashTbl rid }
  L.foldl freeOne st0

/-- Modelled from the spec: `reset_prefix_cache` - succeeds only when every
non-null block has refcount 0; on success every fingerprint is cleared, the
index emptied, the queue reset to slot-id order and a single
`AllBlocksCleared` event emitted; on failure the state is left unchanged. -/
def resetPrefixCache (st : Manager) : Manager × Bool :=
  if (∀ s, s < st.numBlocks → 0 < s → st.refCnt s = 0) then
    ({ st with
        fps := fun _ => none
        index := []
        queue := (List.range st.numBlocks).drop 1
        events := st.events ++ (if st.enableEvents then [KVEvent.cleared] else []) },
      true)
  else (st, false)

/-- Modelled from the spec: `take_events` - return the accumulated events in
insertion order and clear the queue. -/
def takeEvents (st : Manager) : List KVEvent × Manager :=
  (st.events, { st with events := [] })

/-! ### Well-formedness invariant and reachable states -/

/-- Number of occurrences of slot `s` across all live requests' per-group
block lists (spec invariant 4's right-hand side). -/
def totalMult (st : Manager) (s : Slot) : Nat :=
  (st.reqBlocks.map (fun e => e.2.flatten.count s)).sum

/-- Modelled from the spec (§8 invariants): the inductive well-formedness of
a manager state - refcounts equal the block-slots held across live requests,
the free queue is duplicate-free and holds exactly the zero-refcount
non-null blocks, the request tables and index refer only to in-range slots,
request ids are unique, and per-request tables have one list per group. -/
structure WF (st : Manager) : Prop where
  w1 : ∀ s, 0 < s → st.refCnt s = totalMult st s
  w2 : st.queue.Nodup
  w3 : ∀ s ∈ st.queue, 0 < s ∧ s < st.numBlocks ∧ st.refCnt s = 0
  w4 : ∀ s, 0 < s → s < st.numBlocks → st.refCnt s = 0 → s ∈ st.queue
  w5 : ∀ e ∈ st.reqBlocks, ∀ L ∈ e.2, ∀ s ∈ L, s < st.numBlocks
  w6 : ∀ e ∈ st.index, 0 < e.2 ∧ e.2 < st.numBlocks
  w7 : (st.reqBlocks.map Prod.fst).Nodup
  w8 : ∀ e ∈ st.reqBlocks, e.2.length = st.groups.length

/-- The states reachable from construction through the public operations;
the allocation step may pass any per-group hit lists of in-range slots
(which covers what `get_computed_blocks` returns). -/
inductive Reaches : Manager → Prop where
  | init (N B : Nat) (gs : List GroupKind) (c e u : Bool) :
      Reaches (initManager N B gs c e u)
  | getStep (st : Manager) (r : Request) :
      Reaches st → Reaches (getComputedBlocks st r).2
  | allocStep (st : Manager) (r : Request) (numNew numComputed : Nat)
      (hit : List (List Slot)) :
      Reaches st →
      (∀ s ∈ hit.flatten, s < st.numBlocks) →
      hit.length = st.groups.length →
      Reaches (allocateSlots st r numNew numComputed hit).1
  | freeStep (st : Manager) (rid : String) :
      Reaches st → Reaches (freeReq st rid)
  | resetStep (st : Manager) :
      Reaches st → Reaches (resetPrefixCache st).1
  | takeStep (st : Manager) :
      Reaches st → Reaches (takeEvents st).2

/-- The free-list part of the spec invariants (claims' statement): a
non-null block's refcount is zero exactly when it sits on the free queue,
and the free count equals the number of zero-refcount non-null blocks. -/
def FreeInv (st : Manager) : Prop :=
  (∀ s, 0 < s → s < st.numBlocks → (st.refCnt s = 0 ↔ s ∈ st.queue)) ∧
  st.queue.length =
    ((List.range st.numBlocks).filter
      (fun s => decide (0 < s) && decide (st.refCnt s = 0))).length

/-! ### Concrete scenario states

These mirror the repository's test suite (block size 16 or 4) and are used
as witnesses and counterexamples below. -/

/-- Shorthand for `List.replicate`. -/
def rep (n v : Nat) : List Nat := List.replicate n v

/-- The 48-token common prompt of the seed scenarios (3 full 16-token
blocks). -/
def commonToks : List Token := rep 16 0 ++ rep 16 1 ++ rep 16 2

/-- Plain request with no multimodal inputs, no salt, no skip flag. -/
def mkReq (id : String) (toks : List Token) : Request :=
  { reqId := id, tokens := toks, mm := [], cacheSalt := none, skipCaching := false }

/-- Prompt-logprobs request (`skip_caching` true). -/
def mkReqPlp (id : String) (toks : List Token) : Request :=
  { reqId := id, tokens := toks, mm := [], cacheSalt := none, skipCaching := true }

/- LRU scenario (mirrors `test_prefill`): pool of 11 blocks, block size 16. -/

def pReq0 : Request := mkReq "0" (commonToks ++ rep 7 3)
def pReq1 : Request := mkReq "1" (commonToks ++ rep 5 3)
def pReq2 : Request := mkReq "2" (commonToks ++ rep 6 3)
def pReq3 : Request := mkReq "3" (rep 160 99)
def pSt0 : Manager := initManager 11 16 [.full] true false false
def pG0 := getComputedBlocks pSt0 pReq0
def pA0 := allocateSlots pG0.2 pReq0 55 0 pG0.1.1
def pG1 := getComputedBlocks pA0.1 pReq1
def pA1 := allocateSlots pG1.2 pReq1 5 48 pG1.1.1
def pF01 : Manager := freeReq (freeReq pA1.1 "0") "1"
def pG2 := getComputedBlocks pF01 pReq2
def pA2 := allocateSlots pG2.2 pReq2 5 48 pG2.1.1
def pF2 : Manager := freeReq pA2.1 "2"
def pG3 := getComputedBlocks pF2 pReq3
def pA3 := allocateSlots pG3.2 pReq3 160 0 pG3.1.1

/- Insufficient-free-blocks scenario (mirrors
`test_prefill_not_enough_free_blocks_with_computed_blocks`). -/

def nReq0 : Request := mkReq "0" commonToks
def nReq1 : Request := mkReq "1" (commonToks ++ commonToks)
def nReq2 : Request := mkReq "2" (rep 32 7)
def nReq3 : Request := mkReq "3" (commonToks ++ commonToks ++ commonToks)
def nSt0 : Manager := initManager 11 16 [.full] true false false
def nG0 := getComputedBlocks nSt0 nReq0
def nA0 := allocateSlots nG0.2 nReq0 48 0 nG0.1.1
def nG1 := getComputedBlocks nA0.1 nReq1
def nA1 := allocateSlots nG1.2 nReq1 48 48 nG1.1.1
def nF1 : Manager := freeReq nA1.1 "1"
def nG2 := getComputedBlocks nF1 nReq2
def nA2 := allocateSlots nG2.2 nReq2 32 0 nG2.1.1
def nG3 := getComputedBlocks nA2.1 nReq3

/- Hybrid-model scenario (mirrors `test_prefill_hybrid_model`): groups
`{FullAttention, SlidingWindow(32), SlidingWindow(32)}`, 21 blocks. -/

def hGroups : List GroupKind := [.full, .sliding 32, .sliding 32]
def hReq0 : Request := mkReq "0" (commonToks ++ rep 7 3)
def hReq1 : Request := mkReq "1" (commonToks ++ rep 5 3)
def hSt0 : Manager := initManager 21 16 hGroups true false false
def hG0 := getComputedBlocks hSt0 hReq0
def hA0 := allocateSlots hG0.2 hReq0 55 0 hG0.1.1
def hG1 := getComputedBlocks hA0.1 hReq1
def hA1 := allocateSlots hG1.2 hReq1 5 48 hG1.1.1
def hF : Manager := freeReq (freeReq hA1.1 "0") "1"
def hReqT : Request := mkReq "9" (commonToks ++ rep 5 3)

/- Eagle full-attention scenario (mirrors
`test_eagle_enabled_removes_last_block`): 10 blocks, 48-token prompt. -/

def eReq0 : Request := mkReq "d" (rep 48 0)
def eReq1 : Request := mkReq "e" (rep 48 0)
def eSt0 : Manager := initManager 10 16 [.full] true false true
def eG0 := getComputedBlocks eSt0 eReq0
def eA0 := allocateSlots eG0.2 eReq0 48 0 eG0.1.1
def eF : Manager := freeReq eA0.1 "d"

/- Eagle sliding-window scenario (mirrors `test_eagle_with_sliding_window`):
one `SlidingWindow(16)` group, 10 blocks, 37-token prompt; the first
block's fingerprint is then evicted from the index. -/

def wReq0 : Request := mkReq "d" (rep 37 0)
def wReqF : Request := mkReq "f" (rep 37 0)
def wSt0 : Manager := initManager 10 16 [.sliding 16] true false true
def wG0 := getComputedBlocks wSt0 wReq0
def wA0 := allocateSlots wG0.2 wReq0 37 0 wG0.1.1
def wF : Manager := freeReq wA0.1 "d"
def wHs : List Fp := reqHashes 16 wReq0
def wEvict : Manager :=
  { wF with index := wF.index.filter (fun e => decide (e.1 ≠ (wHs.getD 0 [], 0))) }

/- Event-stream scenario (mirrors `test_kv_cache_events` with K = 3 blocks
to cache): block size 4, 4 blocks, events enabled. -/

def vReq0 : Request := mkReq "0" (List.range 12)
def vReq1 : Request := mkReq "1" ((List.range 12).map (fun t => t + 100))
def vSt0 : Manager := initManager 4 4 [.full] true true false
def vA0 := allocateSlots vSt0 vReq0 12 0 [[]]
def vT0 := takeEvents vA0.1
def vF : Manager := freeReq vT0.2 "0"
def vA1 := allocateSlots vF vReq1 12 0 [[]]
def vF1 : Manager := freeReq vA1.1 "1"
def vR := resetPrefixCache vF1

/-- Shape of an event for concise scenario statements: constructor tag and
number of carried fingerprints. -/
def evShape : KVEvent → Nat × Nat
  | .stored h _ _ => (0, h.length)
  | .removed h => (1, h.length)
  | .cleared => (2, 0)

/- Reset scenario (mirrors `test_reset_prefix_cache`): 11 blocks. -/

def rReq0 : Request := mkReq "0" (commonToks ++ rep 7 3)
def rReq1 : Request := mkReq "1" (commonToks ++ rep 7 4)
def rSt0 : Manager := initManager 11 16 [.full] true false false
def rA0 := allocateSlots rSt0 rReq0 55 0 [[]]
def rG1 := getComputedBlocks rA0.1 rReq1
def rA1 := allocateSlots rG1.2 rReq1 7 48 rG1.1.1
def rF : Manager := freeReq (freeReq rA1.1 "0") "1"

/- Prompt-logprobs duplicate-slot scenario (mirrors `test_prefill_plp`):
a `skip_caching` request re-hashes content identical to request 0 into new
slots. -/

def dReq0 : Request := mkReqPlp "0" (commonToks ++ rep 7 3)
def dReq1 : Request := mkReq "1" (commonToks ++ rep 5 3)
def dReq2 : Request := mkReqPlp "2" (commonToks ++ rep 7 3)
def dSt0 : Manager := initManager 11 16 [.full] true false false
def dG0 := getComputedBlocks dSt0 dReq0
def dA0 := allocateSlots dG0.2 dReq0 55 0 dG0.1.1
def dG1 := getComputedBlocks dA0.1 dReq1
def dA1 := allocateSlots dG1.2 dReq1 5 48 dG1.1.1
def dF : Manager := freeReq (freeReq dA1.1 "0") "1"
def dG2 := getComputedBlocks dF dReq2
def dA2 := allocateSlots dG2.2 dReq2 55 0 dG2.1.1

/- Block-aligned fully-cached scenario (for the matching cap): block size 4,
4 blocks; an 8-token prompt is cached in full, then requested again. -/

def xReq0 : Request := mkReq "a" (List.range 8)
def xReq1 : Request := mkReq "b" (List.range 8)
def xSt0 : Manager := initManager 4 4 [.full] true false false
def xA0 := allocateSlots xSt0 xReq0 8 0 [[]]
def xF : Manager := freeReq xA0.1 "a"
def xHs : List Fp := reqHashes 4 xReq0

/-! ## Theorems -/

set_option maxRecDepth 40000

/-- C10: for every request R, calling `get_computed_blocks(R)` twice in
succession (with no intervening operation) returns the same per-group block
lists and the same `num_computed_tokens` both times, and neither call
changes any block's reference count. -/
theorem getComputed_idempotent_no_refcnt_change (st : Manager) (r : Request) :
    (getComputedBlocks (getComputedBlocks st r).2 r).1 = (getComputedBlocks st r).1 ∧
    (∀ b, (getComputedBlocks st r).2.refCnt b = st.refCnt b) ∧
    (∀ b, (getComputedBlocks (getComputedBlocks st r).2 r).2.refCnt b = st.refCnt b) := by
  unfold getComputedBlocks
  by_cases h : (r.skipCaching || !st.enableCaching) = true <;>
    simp [h]

/-- C1: when `allocate_slots` returns absent because fewer fresh slots are
available than needed, the whole state - every reference count, the free
queue, and the fingerprint index - is exactly what it was before the call;
in particular the hit blocks' reference counts are unchanged. -/
theorem allocateSlots_failure_atomic (st : Manager) (r : Request)
    (numNew numComputed : Nat) (hit : List (List Slot))
    (hne : hit.flatten ≠ [])
    (hfail : (allocateSlots st r numNew numComputed hit).2 = none) :
    (allocateSlots st r numNew numComputed hit).1 = st ∧
    (∀ b, (allocateSlots st r numNew numComputed hit).1.refCnt b = st.refCnt b) ∧
    (allocateSlots st r numNew numComputed hit).1.queue = st.queue ∧
    (allocateSlots st r numNew numComputed hit).1.index = st.index := by
  by_cases h : st.queue.length < allocDemand st r numNew numComputed hit
  · simp [allocateSlots, h]
  · simp [allocateSlots, h] at hfail

/-- C1 witness: in the concrete insufficient-blocks scenario (6-block hit,
3 more blocks needed, 5 free of which 3 are the free hit blocks) the
allocation fails and the hit blocks' refcounts are untouched. -/
theorem allocateSlots_failure_atomic_witness :
    nG3.1.1.flatten ≠ [] ∧
    (allocateSlots nG3.2 nReq3 48 96 nG3.1.1).2 = none ∧
    (allocateSlots nG3.2 nReq3 48 96 nG3.1.1).1 = nG3.2 := by
  have h := allocateSlots_failure_atomic nG3.2 nReq3 48 96 nG3.1.1
    (by decide) (by decide)
  exact ⟨by decide, by decide, h.1⟩

/-- C4: block fingerprints are a deterministic function of the token
sequence, the multimodal hashes, the cache salt and the block size - never
of the slot id: two requests agreeing on those fields get identical
fingerprint chains; and in the concrete `skip_caching` scenario the
re-hashed identical content lands in slot 6 with the very fingerprint that
slot 1 already carries (different slots, same fingerprint). -/
theorem hash_chain_deterministic (B : Nat) (r1 r2 : Request)
    (ht : r1.tokens = r2.tokens) (hm : r1.mm = r2.mm)
    (hs : r1.cacheSalt = r2.cacheSalt) :
    reqHashes B r1 = reqHashes B r2 ∧
    (dA2.1.fps 6 = dA2.1.fps 1 ∧ dA2.1.fps 6 ≠ none ∧ (6 : Slot) ≠ 1) := by
  refine ⟨?_, by decide, by decide, by decide⟩
  cases r1; cases r2
  dsimp at ht hm hs
  subst ht; subst hm; subst hs
  rfl

/-- C4 witness: two concrete requests with identical prompts but different
ids and `skip_caching` flags have identical fingerprint chains. -/
theorem hash_chain_deterministic_witness :
    reqHashes 16 dReq0 = reqHashes 16 (mkReq "z" (commonToks ++ rep 7 3)) ∧
    (dA2.1.fps 6 = dA2.1.fps 1 ∧ dA2.1.fps 6 ≠ none ∧ (6 : Slot) ≠ 1) :=
  hash_chain_deterministic 16 dReq0 (mkReq "z" (commonToks ++ rep 7 3))
    rfl rfl rfl

/-- C5: `reset_prefix_cache` returns true exactly when every non-null block
has reference count zero; on success every fingerprint is cleared, the
index becomes empty and the queue is reset to slot-id order; on failure the
state is returned unchanged. -/
theorem reset_iff_all_free (st : Manager) :
    ((resetPrefixCache st).2 = true ↔
      ∀ s, s < st.numBlocks → 0 < s → st.refCnt s = 0) ∧
    ((resetPrefixCache st).2 = true →
      (∀ s, (resetPrefixCache st).1.fps s = none) ∧
      (resetPrefixCache st).1.index = [] ∧
      (resetPrefixCache st).1.queue = (List.range st.numBlocks).drop 1) ∧
    ((resetPrefixCache st).2 = false → (resetPrefixCache st).1 = st) := by
  unfold resetPrefixCache
  split
  · next h => exact ⟨⟨fun _ => h, fun _ => rfl⟩, fun _ => ⟨fun s => rfl, rfl, rfl⟩, by simp⟩
  · next h => exact ⟨⟨by simp, fun hc => absurd hc h⟩, by simp, fun _ => rfl⟩

/-- C5 witness: in the concrete reset scenario, resetting while requests
are live fails and leaves the state unchanged; after both requests are
freed it succeeds and the index becomes empty. -/
theorem reset_iff_all_free_witness :
    (resetPrefixCache rA1.1).2 = false ∧
    (resetPrefixCache rA1.1).1 = rA1.1 ∧
    (resetPrefixCache rF).2 = true ∧
    (resetPrefixCache rF).1.index = [] := by
  have hfail := (reset_iff_all_free rA1.1).2.2 (by decide)
  have hok : (resetPrefixCache rF).2 = true :=
    (reset_iff_all_free rF).1.mpr (by decide)
  exact ⟨by decide, hfail, hok, ((reset_iff_all_free rF).2.1 hok).2.1⟩

/-- C8: `take_events` returns the accumulated events in insertion order and
leaves the queue empty; in the concrete event scenario, allocating a
request that fills 3 blocks appends exactly one `BlockStored` carrying the
3 fingerprints and the 12 covered token ids, freeing it and allocating
different content into the same slots appends 3 `BlockRemoved` events
followed by one `BlockStored`, and a successful reset appends a single
`AllBlocksCleared`. -/
theorem event_stream_shape (st : Manager) :
    ((takeEvents st).1 = st.events ∧ (takeEvents st).2.events = []) ∧
    (vA0.1.events = [KVEvent.stored (reqHashes 4 vReq0) vReq0.tokens 4] ∧
     (reqHashes 4 vReq0).length = 3 ∧ vReq0.tokens.length = 3 * 4 ∧
     vT0.1 = vA0.1.events ∧ vT0.2.events = [] ∧
     vA1.1.events.map evShape = [(1, 1), (1, 1), (1, 1), (0, 3)] ∧
     vR.2 = true ∧
     vR.1.events.map evShape = [(1, 1), (1, 1), (1, 1), (0, 3), (2, 0)]) :=
  ⟨⟨rfl, rfl⟩, by decide⟩

/-! ### Free-queue order helpers -/

theorem evictFp_queue (st : Manager) (s : Slot) : (evictFp st s).queue = st.queue := by
  unfold evictFp
  cases h : st.fps s <;> simp

theorem popN_take (n : Nat) (st : Manager) : (popN st n).2 = st.queue.take n := by
  induction n generalizing st with
  | zero => simp [popN]
  | succ n ih =>
    cases hq : st.queue with
    | nil => simp [popN, popOne, hq]
    | cons s rest =>
      have hq2 : (evictFp { st with queue := rest } s).queue = rest := by
        rw [evictFp_queue]
      simp [popN, popOne, hq, ih, hq2]

/-- C3: the free-block queue realises LRU by free-time - drawing fresh
slots pops from the queue front, a freed block whose refcount reaches zero
goes to the queue back, and in the concrete seed scenario (requests A and B
sharing a 3-block prefix, freed in order A then B) a from-scratch 10-block
allocation draws exactly `[never-allocated ids, A's unique block, B's
unique block, shared prefix blocks in reverse creation order]`. -/
theorem lru_by_free_time (st : Manager) (n : Nat) (s : Slot)
    (h0 : s ≠ 0) (h1 : st.refCnt s = 1) :
    (popN st n).2 = st.queue.take n ∧
    (freeOne st s).queue = st.queue ++ [s] ∧
    (pF01.queue = [6, 7, 8, 9, 10, 4, 5, 3, 2, 1] ∧
     pF2.queue = [7, 8, 9, 10, 4, 5, 6, 3, 2, 1] ∧
     pA3.2 = some [[7, 8, 9, 10, 4, 5, 6, 3, 2, 1]]) := by
  refine ⟨popN_take n st, ?_, by decide⟩
  unfold freeOne
  simp [h0, h1]

/-- C3 witness: applied to the concrete post-allocation state, drawing two
blocks pops the first two queue entries, and freeing request 0's unique
block (refcount 1) pushes it to the back. -/
theorem lru_by_free_time_witness :
    (4 : Slot) ≠ 0 ∧ pA1.1.refCnt 4 = 1 ∧
    ((popN pA1.1 2).2 = pA1.1.queue.take 2 ∧
     (freeOne pA1.1 4).queue = pA1.1.queue ++ [4] ∧
     (pF01.queue = [6, 7, 8, 9, 10, 4, 5, 3, 2, 1] ∧
      pF2.queue = [7, 8, 9, 10, 4, 5, 6, 3, 2, 1] ∧
      pA3.2 = some [[7, 8, 9, 10, 4, 5, 6, 3, 2, 1]])) :=
  ⟨by decide, by decide, lru_by_free_time pA1.1 2 4 (by decide) (by decide)⟩

/-- C9: for a request whose token count is an exact multiple of the block
size, the final full-block hash is dropped from matching, so the hit never
covers the last full block: at most `n - 1` blocks without Eagle and at
most `n - 2` blocks with Eagle (which removes one more hit block). -/
theorem aligned_last_block_never_matched (st : Manager) (r : Request)
    (hal : st.blockSize ∣ r.tokens.length)
    (hskip : r.skipCaching = false) (hc : st.enableCaching = true) :
    (st.useEagle = false →
      (getComputedBlocks st r).1.2 ≤
        ((reqHashes st.blockSize r).length - 1) * st.blockSize) ∧
    (st.useEagle = true →
      (getComputedBlocks st r).1.2 ≤
        ((reqHashes st.blockSize r).length - 2) * st.blockSize) := by
  have hcond : (r.skipCaching || !st.enableCaching) = false := by
    rw [hskip, hc]; rfl
  have hmax : matchableBlocks st.blockSize r (reqHashes st.blockSize r) =
      (reqHashes st.blockSize r).length - 1 := by
    unfold matchableBlocks
    rw [if_pos hal]
  constructor
  · intro he
    simp only [getComputedBlocks, hcond, Bool.false_eq_true, if_false,
      computeHit, he, hmax]
    exact Nat.mul_le_mul_right _ (Nat.findGreatest_le _)
  · intro he
    simp only [getComputedBlocks, hcond, Bool.false_eq_true, if_false,
      computeHit, he, if_true, hmax]
    have := Nat.findGreatest_le (n := (reqHashes st.blockSize r).length - 1 - 1)
      (P := fun p => allServe st.index st.blockSize st.groups (reqHashes st.blockSize r) p ∧
        allServe st.index st.blockSize st.groups (reqHashes st.blockSize r) (p + 1))
    calc Nat.findGreatest _ ((reqHashes st.blockSize r).length - 1 - 1) *
        st.blockSize ≤ ((reqHashes st.blockSize r).length - 1 - 1) * st.blockSize :=
          Nat.mul_le_mul_right _ this
    _ = ((reqHashes st.blockSize r).length - 2) * st.blockSize := by
          rw [Nat.sub_sub]

/-- C9 witness: the concrete Eagle scenario - a fully cached 3-full-block
prompt yields a hit of at most 1 block (16 tokens), and indeed exactly 16. -/
theorem aligned_last_block_never_matched_witness :
    (getComputedBlocks eF eReq1).1.2 ≤
      ((reqHashes eF.blockSize eReq1).length - 2) * eF.blockSize ∧
    (getComputedBlocks eF eReq1).1.2 = 16 :=
  ⟨(aligned_last_block_never_matched eF eReq1 (by decide) rfl (by decide)).2
      (by decide),
    by decide⟩

/-! ### Combined-hit characterization helpers -/

theorem allServe_zero (idx : List (FpG × Slot)) (B : Nat) (gs : List GroupKind)
    (hs : List Fp) : allServe idx B gs hs 0 :=
  fun _ _ i hi => absurd hi (Nat.not_lt_zero i)

theorem hitLen_is_greatest (idx : List (FpG × Slot)) (B : Nat)
    (gs : List GroupKind) (hs : List Fp) (maxB : Nat) :
    allServe idx B gs hs (hitLen idx B gs hs maxB) ∧
    hitLen idx B gs hs maxB ≤ maxB ∧
    (∀ q, q ≤ maxB → allServe idx B gs hs q → q ≤ hitLen idx B gs hs maxB) :=
  ⟨Nat.findGreatest_spec (Nat.zero_le maxB) (allServe_zero idx B gs hs),
    Nat.findGreatest_le maxB,
    fun _ hq hsv => Nat.le_findGreatest hq hsv⟩

theorem getD_ofFn_lt {α : Type} {n : Nat} (f : Fin n → α) (g : Nat)
    (hg : g < n) (d : α) : (List.ofFn f).getD g d = f ⟨g, hg⟩ := by
  rw [List.getD_eq_getElem _ d (by simpa using hg), List.getElem_ofFn]

theorem getD_range_map_lt {α : Type} (p : Nat) (f : Nat → α) (i : Nat)
    (hi : i < p) (d : α) : ((List.range p).map f).getD i d = f i := by
  rw [List.getD_eq_getElem _ d (by simpa using hi), List.getElem_map,
    List.getElem_range]

theorem lowestCached_mem {idx : List (FpG × Slot)} {f : Fp} {g : Nat}
    (h : isCached idx f g) :
    (lowestCached idx f g).getD 0 ∈ cachedSlotsFor idx f g := by
  unfold lowestCached
  cases hm : (cachedSlotsFor idx f g).min? with
  | none =>
      exact absurd (List.min?_eq_none_iff.mp hm) h
  | some m =>
      simpa using List.min?_mem min_choice hm

theorem servedList_length (idx : List (FpG × Slot)) (B : Nat) (hs : List Fp)
    (g : Nat) (k : GroupKind) (p : Nat) :
    (servedList idx B hs g k p).length = p := by
  simp [servedList]

/-- C2 counterexample: on an 8-token (2 full blocks, block-aligned) prompt
whose both fingerprints are cached, the single full-attention group can
serve the whole 2-block prefix, yet `get_computed_blocks` returns only
1 block (4 tokens): the returned length is not the largest servable prefix
length, because the final full-block hash of a block-aligned prompt is
dropped from matching. -/
theorem combined_hit_cap_cex :
    allServe xF.index 4 [GroupKind.full] (reqHashes 4 xReq1) 2 ∧
    (getComputedBlocks xF xReq1).1.2 = 1 * 4 ∧ (1 : Nat) < 2 := by
  exact ⟨by decide, by decide, by decide⟩

/-- C2 (amended with the matching cap): with caching enabled, no
`skip_caching` and no Eagle mode, `get_computed_blocks` returns `p * B`
computed tokens where `p` is the largest prefix length *not exceeding the
matchable blocks* (the final full block of a block-aligned prompt is
excluded) such that every group can serve blocks `0..p-1` - a full-
attention group serving position `i` only if fingerprint `i` is cached for
it, a sliding-window group also serving positions outside the window at
prefix length `p`; the per-group lists are truncated to the common `p`,
hold the null block (slot 0) exactly at outside-window positions of sliding
groups, and a cached slot of the position's fingerprint everywhere else. -/
theorem combined_hit_largest_servable (st : Manager) (r : Request)
    (hskip : r.skipCaching = false) (hc : st.enableCaching = true)
    (he : st.useEagle = false) :
    ∃ p,
      (getComputedBlocks st r).1.2 = p * st.blockSize ∧
      p ≤ matchableBlocks st.blockSize r (reqHashes st.blockSize r) ∧
      allServe st.index st.blockSize st.groups (reqHashes st.blockSize r) p ∧
      (∀ q, q ≤ matchableBlocks st.blockSize r (reqHashes st.blockSize r) →
        allServe st.index st.blockSize st.groups (reqHashes st.blockSize r) q →
        q ≤ p) ∧
      (getComputedBlocks st r).1.1.length = st.groups.length ∧
      (∀ g, (hg : g < st.groups.length) →
        ((getComputedBlocks st r).1.1.getD g []).length = p ∧
        (∀ i, i < p →
          (st.groups.get ⟨g, hg⟩ = GroupKind.full →
            ((getComputedBlocks st r).1.1.getD g []).getD i 0 ∈
              cachedSlotsFor st.index (fpAt (reqHashes st.blockSize r) i) g) ∧
          (∀ w, st.groups.get ⟨g, hg⟩ = GroupKind.sliding w →
            (outsideWindow st.blockSize w i p →
              ((getComputedBlocks st r).1.1.getD g []).getD i 0 = 0) ∧
            (¬outsideWindow st.blockSize w i p →
              ((getComputedBlocks st r).1.1.getD g []).getD i 0 ∈
                cachedSlotsFor st.index (fpAt (reqHashes st.blockSize r) i) g)))) := by
  have hcond : (r.skipCaching || !st.enableCaching) = false := by
    rw [hskip, hc]; rfl
  have hout : getComputedBlocks st r =
      (computeHit st.index st.blockSize st.groups st.useEagle r,
        { st with reqHashTbl :=
            setEntry st.reqHashTbl r.reqId (reqHashes st.blockSize r) }) := by
    unfold getComputedBlocks
    rw [hcond]
    rfl
  set hs := reqHashes st.blockSize r with hhs
  set maxB := matchableBlocks st.blockSize r hs with hmaxB
  set p := hitLen st.index st.blockSize st.groups hs maxB with hp
  have hch : computeHit st.index st.blockSize st.groups st.useEagle r =
      (List.ofFn (fun g : Fin st.groups.length =>
        servedList st.index st.blockSize hs g (st.groups.get g) p),
        p * st.blockSize) := by
    unfold computeHit
    rw [he]
    rfl
  have hspec := hitLen_is_greatest st.index st.blockSize st.groups hs maxB
  refine ⟨p, ?_, hspec.2.1, hspec.1, hspec.2.2, ?_, ?_⟩
  · rw [hout, hch]
  · rw [hout, hch]
    simp
  · intro g hg
    have hgl : (getComputedBlocks st r).1.1.getD g [] =
        servedList st.index st.blockSize hs g (st.groups.get ⟨g, hg⟩) p := by
      rw [hout, hch]
      dsimp only
      exact getD_ofFn_lt _ g hg []
    refine ⟨by rw [hgl]; exact servedList_length _ _ _ _ _ _, ?_⟩
    intro i hi
    have hserve := hspec.1 g hg i hi
    constructor
    · intro hfull
      rw [hgl]
      simp only [servedList, hfull]
      rw [getD_range_map_lt p _ i hi 0]
      have hcach : isCached st.index (fpAt hs i) g := by
        have hx := hserve
        unfold canServePos at hx
        rw [hfull] at hx
        exact hx
      exact lowestCached_mem hcach
    · intro w hw
      constructor
      · intro hoW
        rw [hgl]
        simp only [servedList, hw]
        rw [getD_range_map_lt p _ i hi 0]
        rw [if_pos hoW]
      · intro hoW
        rw [hgl]
        simp only [servedList, hw]
        rw [getD_range_map_lt p _ i hi 0]
        rw [if_neg hoW]
        have hcach : isCached st.index (fpAt hs i) g := by
          have hx := hserve
          unfold canServePos at hx
          rw [hw] at hx
          rcases hx with hx | hx
          · exact hx
          · exact absurd hx hoW
        exact lowestCached_mem hcach

/-- C2 witness: the amended characterization applied to the concrete
hybrid-model state (full attention + two sliding-window groups). -/
theorem combined_hit_largest_servable_witness :
    ∃ p,
      (getComputedBlocks hF hReqT).1.2 = p * hF.blockSize ∧
      p ≤ matchableBlocks hF.blockSize hReqT (reqHashes hF.blockSize hReqT) ∧
      allServe hF.index hF.blockSize hF.groups (reqHashes hF.blockSize hReqT) p ∧
      (∀ q, q ≤ matchableBlocks hF.blockSize hReqT (reqHashes hF.blockSize hReqT) →
        allServe hF.index hF.blockSize hF.groups (reqHashes hF.blockSize hReqT) q →
        q ≤ p) ∧
      (getComputedBlocks hF hReqT).1.1.length = hF.groups.length ∧
      (∀ g, (hg : g < hF.groups.length) →
        ((getComputedBlocks hF hReqT).1.1.getD g []).length = p ∧
        (∀ i, i < p →
          (hF.groups.get ⟨g, hg⟩ = GroupKind.full →
            ((getComputedBlocks hF hReqT).1.1.getD g []).getD i 0 ∈
              cachedSlotsFor hF.index (fpAt (reqHashes hF.blockSize hReqT) i) g) ∧
          (∀ w, hF.groups.get ⟨g, hg⟩ = GroupKind.sliding w →
            (outsideWindow hF.blockSize w i p →
              ((getComputedBlocks hF hReqT).1.1.getD g []).getD i 0 = 0) ∧
            (¬outsideWindow hF.blockSize w i p →
              ((getComputedBlocks hF hReqT).1.1.getD g []).getD i 0 ∈
                cachedSlotsFor hF.index (fpAt (reqHashes hF.blockSize hReqT) i) g)))) :=
  combined_hit_largest_servable hF hReqT rfl (by decide) (by decide)

/-! ### Eagle-mode helpers -/

theorem allServe_mono_of_full (idx : List (FpG × Slot)) (B : Nat)
    (gs : List GroupKind) (hs : List Fp)
    (hfull : ∀ k ∈ gs, k = GroupKind.full) {q q' : Nat} (hle : q' ≤ q)
    (h : allServe idx B gs hs q) : allServe idx B gs hs q' := by
  intro g hg i hi
  have hk := hfull (gs.get ⟨g, hg⟩) (gs.get_mem g hg)
  have hx := h g hg i (lt_of_lt_of_le hi hle)
  unfold canServePos at hx ⊢
  rw [hk] at hx ⊢
  exact hx

theorem hitLenEagle_of_full (idx : List (FpG × Slot)) (B : Nat)
    (gs : List GroupKind) (hs : List Fp) (maxB : Nat)
    (hfull : ∀ k ∈ gs, k = GroupKind.full) :
    hitLenEagle idx B gs hs maxB = hitLen idx B gs hs maxB - 1 := by
  by_cases hL0 : hitLen idx B gs hs maxB = 0
  · have hE : hitLenEagle idx B gs hs maxB = 0 := by
      apply Nat.findGreatest_eq_zero_iff.mpr
      intro n hn hnle hP
      have : n ≤ hitLen idx B gs hs maxB :=
        Nat.le_findGreatest (le_trans hnle (Nat.sub_le maxB 1)) hP.1
      omega
    rw [hE, hL0]
  · have hL1 : 1 ≤ hitLen idx B gs hs maxB := Nat.one_le_iff_ne_zero.mpr hL0
    have hASL : allServe idx B gs hs (hitLen idx B gs hs maxB) :=
      Nat.findGreatest_spec (Nat.zero_le maxB) (allServe_zero idx B gs hs)
    have hLle : hitLen idx B gs hs maxB ≤ maxB := Nat.findGreatest_le maxB
    apply Nat.le_antisymm
    · by_contra hgt
      push_neg at hgt
      have hE0 : hitLenEagle idx B gs hs maxB ≠ 0 := by omega
      have hPE := (Nat.findGreatest_eq_iff.1 (rfl
        (a := hitLenEagle idx B gs hs maxB))).2.1 hE0
      have hEle : hitLenEagle idx B gs hs maxB ≤ maxB - 1 :=
        Nat.findGreatest_le (maxB - 1)
      have hsucc : hitLenEagle idx B gs hs maxB + 1 ≤ maxB := by omega
      have : hitLenEagle idx B gs hs maxB + 1 ≤ hitLen idx B gs hs maxB :=
        Nat.le_findGreatest hsucc hPE.2
      omega
    · apply Nat.le_findGreatest (by omega)
      constructor
      · exact allServe_mono_of_full idx B gs hs hfull
          (Nat.sub_le (hitLen idx B gs hs maxB) 1) hASL
      · rw [Nat.sub_add_cancel hL1]
        exact hASL

/-- C6 counterexample: in the eagle sliding-window scenario (window of one
16-token block, 2-full-block prompt, first fingerprint evicted) the plain
per-group intersection hit is 2 blocks, so a decrement by exactly one block
would return 1 block (16 computed tokens) - but the call returns a full
cache miss (0 tokens), exactly as the repository test asserts. -/
theorem eagle_hit_decrement_cex :
    hitLen wEvict.index wEvict.blockSize wEvict.groups
      (reqHashes wEvict.blockSize wReqF)
      (matchableBlocks wEvict.blockSize wReqF
        (reqHashes wEvict.blockSize wReqF)) = 2 ∧
    (getComputedBlocks wEvict wReqF).1.2 = 0 ∧ (2 - 1) * 16 ≠ 0 := by
  exact ⟨by decide, by decide, by decide⟩

/-- C6 (amended): with Eagle enabled the hit is the largest `p` such that
every group can serve both the `p`-block and the `(p+1)`-block prefixes
(the last hit block is recomputed, so one extra servable block is
required).  For configurations of only full-attention groups this equals
the per-group intersection hit decremented by exactly one block; in
sliding-window groups the hit can drop by more than one block, down to a
cache miss.  When the adjusted hit is zero the call returns a cache miss:
empty per-group block lists and `num_computed_tokens = 0`. -/
theorem eagle_hit_decrement (st : Manager) (r : Request)
    (hskip : r.skipCaching = false) (hc : st.enableCaching = true)
    (he : st.useEagle = true) :
    ((∀ k ∈ st.groups, k = GroupKind.full) →
      (getComputedBlocks st r).1.2 =
        (hitLen st.index st.blockSize st.groups (reqHashes st.blockSize r)
          (matchableBlocks st.blockSize r (reqHashes st.blockSize r)) - 1) *
          st.blockSize) ∧
    (∃ p, (getComputedBlocks st r).1.2 = p * st.blockSize ∧
      (p = 0 ∨
        (allServe st.index st.blockSize st.groups (reqHashes st.blockSize r) p ∧
         allServe st.index st.blockSize st.groups (reqHashes st.blockSize r) (p + 1))) ∧
      (∀ q, q ≤ matchableBlocks st.blockSize r (reqHashes st.blockSize r) - 1 →
        allServe st.index st.blockSize st.groups (reqHashes st.blockSize r) q →
        allServe st.index st.blockSize st.groups (reqHashes st.blockSize r) (q + 1) →
        q ≤ p)) ∧
    (hitLenEagle st.index st.blockSize st.groups (reqHashes st.blockSize r)
        (matchableBlocks st.blockSize r (reqHashes st.blockSize r)) = 0 →
      (getComputedBlocks st r).1.2 = 0 ∧
      ∀ L ∈ (getComputedBlocks st r).1.1, L = []) := by
  have hcond : (r.skipCaching || !st.enableCaching) = false := by
    rw [hskip, hc]; rfl
  have hout : getComputedBlocks st r =
      (computeHit st.index st.blockSize st.groups st.useEagle r,
        { st with reqHashTbl :=
            setEntry st.reqHashTbl r.reqId (reqHashes st.blockSize r) }) := by
    unfold getComputedBlocks
    rw [hcond]
    rfl
  set hs := reqHashes st.blockSize r with hhs
  set maxB := matchableBlocks st.blockSize r hs with hmaxB
  set p := hitLenEagle st.index st.blockSize st.groups hs maxB with hp
  have hch : computeHit st.index st.blockSize st.groups st.useEagle r =
      (List.ofFn (fun g : Fin st.groups.length =>
        servedList st.index st.blockSize hs g (st.groups.get g) p),
        p * st.blockSize) := by
    unfold computeHit
    rw [he]
    rfl
  refine ⟨?_, ?_, ?_⟩
  · intro hfull
    rw [hout, hch]
    rw [hp, hitLenEagle_of_full st.index st.blockSize st.groups hs maxB hfull]
  · refine ⟨p, by rw [hout, hch], ?_, ?_⟩
    · by_cases hp0 : p = 0
      · exact Or.inl hp0
      · exact Or.inr ((Nat.findGreatest_eq_iff.1 (rfl (a := p))).2.1 hp0)
    · intro q hq h1 h2
      exact Nat.le_findGreatest hq ⟨h1, h2⟩
  · intro hz
    have hpz : p = 0 := hz
    constructor
    · rw [hout, hch, hpz]
      simp
    · intro L hL
      rw [hout, hch] at hL
      simp only at hL
      rcases (List.mem_ofFn _ _).mp hL with ⟨g, hgL⟩
      rw [hpz] at hgL
      rw [← hgL]
      rfl

/-- C6 witness: the amended statement applied to the concrete full-
attention eagle state - the plain intersection hit there is 2 blocks and
the call returns exactly one fewer block (16 computed tokens). -/
theorem eagle_hit_decrement_witness :
    ((∀ k ∈ eF.groups, k = GroupKind.full) →
      (getComputedBlocks eF eReq1).1.2 =
        (hitLen eF.index eF.blockSize eF.groups (reqHashes eF.blockSize eReq1)
          (matchableBlocks eF.blockSize eReq1 (reqHashes eF.blockSize eReq1)) - 1) *
          eF.blockSize) ∧
    hitLen eF.index eF.blockSize eF.groups (reqHashes eF.blockSize eReq1)
      (matchableBlocks eF.blockSize eReq1 (reqHashes eF.blockSize eReq1)) = 2 ∧
    (getComputedBlocks eF eReq1).1.2 = 16 :=
  ⟨(eagle_hit_decrement eF eReq1 rfl (by decide) (by decide)).1,
    by decide, by decide⟩

/-! ### State-machine invariant: shape and frame lemmas -/

theorem setAt_self {α : Type} (f : Nat → α) (s : Nat) (v : α) :
    setAt f s v s = v := by
  simp [setAt]

theorem setAt_other {α : Type} (f : Nat → α) (s : Nat) (v : α) {t : Nat}
    (h : t ≠ s) : setAt f s v t = f t := by
  simp [setAt, h]

theorem touchOne_shape (st : Manager) (s : Slot) :
    ∃ rc q, touchOne st s = { st with refCnt := rc, queue := q } := by
  unfold touchOne
  split
  · exact ⟨st.refCnt, st.queue, rfl⟩
  · exact ⟨_, _, rfl⟩

theorem touch_foldl_shape (slots : List Slot) (st : Manager) :
    ∃ rc q, slots.foldl touchOne st = { st with refCnt := rc, queue := q } := by
  induction slots generalizing st with
  | nil => exact ⟨st.refCnt, st.queue, rfl⟩
  | cons s rest ih =>
    obtain ⟨rc1, q1, h1⟩ := touchOne_shape st s
    obtain ⟨rc2, q2, h2⟩ := ih { st with refCnt := rc1, queue := q1 }
    refine ⟨rc2, q2, ?_⟩
    rw [List.foldl_cons, h1, h2]

theorem evictFp_shape (st : Manager) (s : Slot) :
    ∃ fp idx ev, evictFp st s = { st with fps := fp, index := idx, events := ev } ∧
      ∀ e ∈ idx, e ∈ st.index := by
  unfold evictFp
  cases h : st.fps s with
  | none => exact ⟨st.fps, st.index, st.events, rfl, fun _ he => he⟩
  | some f =>
      refine ⟨_, _, _, rfl, ?_⟩
      intro e he
      exact (List.mem_filter.mp he).1

theorem popN_shape (n : Nat) (st : Manager) :
    ∃ rc q fp idx ev, (popN st n).1 =
      { st with refCnt := rc, queue := q, fps := fp, index := idx, events := ev } := by
  induction n generalizing st with
  | zero => exact ⟨st.refCnt, st.queue, st.fps, st.index, st.events, rfl⟩
  | succ n ih =>
    cases hq : st.queue with
    | nil =>
        have hp : popN st (n + 1) = (st, []) := by
          unfold popN popOne
          rw [hq]
        rw [hp]
        exact ⟨st.refCnt, st.queue, st.fps, st.index, st.events, rfl⟩
    | cons s rest =>
        obtain ⟨fp1, idx1, ev1, hE, _⟩ := evictFp_shape { st with queue := rest } s
        obtain ⟨rc2, q2, fp2, idx2, ev2, h2⟩ :=
          ih { st with
            queue := rest
            fps := fp1
            index := idx1
            events := ev1
            refCnt := setAt st.refCnt s 1 }
        refine ⟨rc2, q2, fp2, idx2, ev2, ?_⟩
        have hgoal : (popN st (n + 1)).1 =
            (popN { evictFp { st with queue := rest } s with
              refCnt := setAt (evictFp { st with queue := rest } s).refCnt s 1 } n).1 := by
          conv_lhs => unfold popN popOne
          rw [hq]
        rw [hgoal, hE]
        exact h2

theorem drawGroups_shape (ns : List Nat) (st : Manager) :
    ∃ rc q fp idx ev, (drawGroups st ns).1 =
      { st with refCnt := rc, queue := q, fps := fp, index := idx, events := ev } := by
  induction ns generalizing st with
  | nil => exact ⟨st.refCnt, st.queue, st.fps, st.index, st.events, rfl⟩
  | cons n ns ih =>
    have hd : (drawGroups st (n :: ns)).1 = (drawGroups (popN st n).1 ns).1 := rfl
    obtain ⟨rc1, q1, fp1, idx1, ev1, h1⟩ := popN_shape n st
    obtain ⟨rc2, q2, fp2, idx2, ev2, h2⟩ :=
      ih { st with refCnt := rc1, queue := q1, fps := fp1, index := idx1, events := ev1 }
    refine ⟨rc2, q2, fp2, idx2, ev2, ?_⟩
    rw [hd, h1]
    exact h2

theorem freeOne_shape (st : Manager) (s : Slot) :
    ∃ rc q, freeOne st s = { st with refCnt := rc, queue := q } := by
  unfold freeOne
  split
  · exact ⟨st.refCnt, st.queue, rfl⟩
  · exact ⟨_, _, rfl⟩

theorem free_foldl_shape (slots : List Slot) (st : Manager) :
    ∃ rc q, slots.foldl freeOne st = { st with refCnt := rc, queue := q } := by
  induction slots generalizing st with
  | nil => exact ⟨st.refCnt, st.queue, rfl⟩
  | cons s rest ih =>
    obtain ⟨rc1, q1, h1⟩ := freeOne_shape st s
    obtain ⟨rc2, q2, h2⟩ := ih { st with refCnt := rc1, queue := q1 }
    refine ⟨rc2, q2, ?_⟩
    rw [List.foldl_cons, h1, h2]

theorem cacheStep_foldl_shape (B : Nat) (toks : List Token) (hs : List Fp)
    (g : Nat) (slots : List Slot) (posns : List Nat)
    (his : ∀ i ∈ posns, i < slots.length) :
    ∀ acc : Manager × List Fp × List Token,
      ∃ fp idx, (posns.foldl (cacheStep B toks hs g slots) acc).1 =
        { acc.1 with fps := fp, index := idx } ∧
        ∀ e ∈ idx, e ∈ acc.1.index ∨ (0 < e.2 ∧ e.2 ∈ slots) := by
  induction posns with
  | nil => exact fun acc => ⟨acc.1.fps, acc.1.index, rfl, fun _ he => Or.inl he⟩
  | cons i rest ih =>
    intro acc
    have hi : i < slots.length := his i (List.mem_cons_self i rest)
    have hrest : ∀ j ∈ rest, j < slots.length :=
      fun j hj => his j (List.mem_cons_of_mem i hj)
    rw [List.foldl_cons]
    unfold cacheStep
    split
    · next hcase =>
        obtain ⟨fp2, idx2, h2, hsub⟩ := ih hrest
          ({ acc.1 with
              fps := setAt acc.1.fps (slots.getD i 0) (some (fpAt hs i, g))
              index := acc.1.index ++ [((fpAt hs i, g), slots.getD i 0)] },
            acc.2.1 ++ [fpAt hs i], acc.2.2 ++ blockTokens B toks i)
        refine ⟨fp2, idx2, h2, ?_⟩
        intro e he
        rcases hsub e he with hmem | hnew
        · dsimp only at hmem
          rcases List.mem_append.mp hmem with hold | hone
          · exact Or.inl hold
          · right
            rcases List.mem_singleton.mp hone with rfl
            refine ⟨Nat.pos_of_ne_zero hcase.1, ?_⟩
            rw [List.getD_eq_getElem _ 0 hi]
            exact List.getElem_mem hi
        · exact Or.inr hnew
    · exact ih hrest acc

theorem cacheFullOne_shape (B : Nat) (toks : List Token) (hs : List Fp)
    (g : Nat) (slots : List Slot) (numFull : Nat) (st : Manager) :
    ∃ fp idx ev, cacheFullOne B toks hs g slots numFull st =
      { st with fps := fp, index := idx, events := ev } ∧
      ∀ e ∈ idx, e ∈ st.index ∨ (0 < e.2 ∧ e.2 ∈ slots) := by
  have his : ∀ i ∈ List.range (min numFull slots.length), i < slots.length := by
    intro i hi
    have := List.mem_range.mp hi
    omega
  obtain ⟨fp1, idx1, h1, hsub⟩ := cacheStep_foldl_shape B toks hs g slots
    (List.range (min numFull slots.length)) his (st, [], [])
  simp only [cacheFullOne]
  split
  · next hev =>
      refine ⟨fp1, idx1,
        ((List.range (min numFull slots.length)).foldl
          (cacheStep B toks hs g slots) (st, [], [])).1.events ++
          [KVEvent.stored
            ((List.range (min numFull slots.length)).foldl
              (cacheStep B toks hs g slots) (st, [], [])).2.1
            ((List.range (min numFull slots.length)).foldl
              (cacheStep B toks hs g slots) (st, [], [])).2.2 B], ?_, hsub⟩
      rw [h1]
  · next hev =>
      refine ⟨fp1, idx1, st.events, ?_, hsub⟩
      rw [h1]

theorem cacheFullAll_shape (B : Nat) (toks : List Token) (hs : List Fp)
    (lists : List (List Slot)) (numFull : Nat) (st : Manager) :
    ∃ fp idx ev, cacheFullAll B toks hs lists numFull st =
      { st with fps := fp, index := idx, events := ev } ∧
      ∀ e ∈ idx, e ∈ st.index ∨ (0 < e.2 ∧ ∃ L ∈ lists, e.2 ∈ L) := by
  unfold cacheFullAll
  suffices h : ∀ (gsl : List Nat) (st0 : Manager),
      ∃ fp idx ev, gsl.foldl
        (fun acc g => cacheFullOne B toks hs g (lists.getD g []) numFull acc) st0 =
        { st0 with fps := fp, index := idx, events := ev } ∧
        ∀ e ∈ idx, e ∈ st0.index ∨ (0 < e.2 ∧ ∃ L ∈ lists, e.2 ∈ L) by
    exact h (List.range lists.length) st
  intro gsl
  induction gsl with
  | nil => exact fun st0 => ⟨st0.fps, st0.index, st0.events, rfl, fun _ he => Or.inl he⟩
  | cons g rest ih =>
    intro st0
    rw [List.foldl_cons]
    obtain ⟨fp1, idx1, ev1, h1, hsub1⟩ :=
      cacheFullOne_shape B toks hs g (lists.getD g []) numFull st0
    obtain ⟨fp2, idx2, ev2, h2, hsub2⟩ :=
      ih { st0 with fps := fp1, index := idx1, events := ev1 }
    refine ⟨fp2, idx2, ev2, by rw [h1]; exact h2, ?_⟩
    intro e he
    rcases hsub2 e he with hmem | hnew
    · dsimp only at hmem
      rcases hsub1 e hmem with hold | hone
      · exact Or.inl hold
      · right
        refine ⟨hone.1, ?_⟩
        by_cases hg : g < lists.length
        · refine ⟨lists.getD g [], ?_, hone.2⟩
          rw [List.getD_eq_getElem _ [] hg]
          exact List.getElem_mem hg
        · rw [List.getD_eq_default _ [] (by omega)] at hone
          exact absurd hone.2 (List.not_mem_nil e.2)
    · exact Or.inr hnew

/-! ### Accounting fold lemmas -/

theorem count_cons_calc (s0 s : Slot) (rest : List Slot) :
    (s0 :: rest).count s = rest.count s + if s = s0 then 1 else 0 := by
  rw [List.count_cons]
  by_cases hss : s = s0
  · subst hss
    simp
  · have hb : (s0 == s) = false := beq_eq_false_iff_ne.mpr (Ne.symm hss)
    rw [hb, if_neg hss]
    simp

theorem touch_fold_inv (slots : List Slot) (st : Manager) (ex : Slot → Nat)
    (h1 : ∀ s, 0 < s → st.refCnt s = ex s)
    (h2 : st.queue.Nodup)
    (h3 : ∀ s ∈ st.queue, 0 < s ∧ s < st.numBlocks ∧ st.refCnt s = 0)
    (h4 : ∀ s, 0 < s → s < st.numBlocks → st.refCnt s = 0 → s ∈ st.queue) :
    (∀ s, 0 < s → (slots.foldl touchOne st).refCnt s = ex s + slots.count s) ∧
    (slots.foldl touchOne st).queue.Nodup ∧
    (∀ s ∈ (slots.foldl touchOne st).queue,
      0 < s ∧ s < st.numBlocks ∧ (slots.foldl touchOne st).refCnt s = 0) ∧
    (∀ s, 0 < s → s < st.numBlocks → (slots.foldl touchOne st).refCnt s = 0 →
      s ∈ (slots.foldl touchOne st).queue) := by
  induction slots generalizing st ex with
  | nil =>
      refine ⟨fun s hs => ?_, h2, h3, h4⟩
      simpa using h1 s hs
  | cons s0 rest ih =>
      rw [List.foldl_cons]
      by_cases hs0 : s0 = 0
      · subst hs0
        have ht0 : touchOne st 0 = st := by
          unfold touchOne
          simp
        rw [ht0]
        have hmain := ih st ex h1 h2 h3 h4
        refine ⟨fun s hs => ?_, hmain.2.1, hmain.2.2.1, hmain.2.2.2⟩
        rw [hmain.1 s hs, count_cons_calc, if_neg (Nat.pos_iff_ne_zero.mp hs)]
        omega
      · have hp0 : 0 < s0 := Nat.pos_of_ne_zero hs0
        have hT : touchOne st s0 = { st with
            refCnt := setAt st.refCnt s0 (st.refCnt s0 + 1)
            queue := if st.refCnt s0 = 0 then st.queue.erase s0 else st.queue } := by
          unfold touchOne
          rw [if_neg hs0]
        rw [hT]
        by_cases hrc : st.refCnt s0 = 0
        · rw [if_pos hrc]
          have hmain := ih
            { st with
              refCnt := setAt st.refCnt s0 (st.refCnt s0 + 1)
              queue := st.queue.erase s0 }
            (fun t => if t = s0 then ex t + 1 else ex t)
            (fun s hs => by
              show setAt st.refCnt s0 (st.refCnt s0 + 1) s =
                if s = s0 then ex s + 1 else ex s
              by_cases hss : s = s0
              · subst hss
                rw [if_pos rfl, setAt_self, h1 s hs]
              · rw [if_neg hss, setAt_other _ _ _ hss, h1 s hs])
            (List.Nodup.erase s0 h2)
            (fun s hmem => by
              have hx := (List.Nodup.mem_erase_iff h2).mp hmem
              have hy := h3 s hx.2
              refine ⟨hy.1, hy.2.1, ?_⟩
              show setAt st.refCnt s0 (st.refCnt s0 + 1) s = 0
              rw [setAt_other _ _ _ hx.1]
              exact hy.2.2)
            (fun s hs hsN hz => by
              by_cases hss : s = s0
              · subst hss
                rw [show ({ st with
                    refCnt := setAt st.refCnt s (st.refCnt s + 1)
                    queue := st.queue.erase s } : Manager).refCnt s =
                    st.refCnt s + 1 from setAt_self _ _ _] at hz
                omega
              · rw [show ({ st with
                    refCnt := setAt st.refCnt s0 (st.refCnt s0 + 1)
                    queue := st.queue.erase s0 } : Manager).refCnt s =
                    st.refCnt s from setAt_other _ _ _ hss] at hz
                exact List.mem_erase_of_ne hss |>.mpr (h4 s hs hsN hz))
          refine ⟨fun s hs => ?_, hmain.2.1, hmain.2.2.1, hmain.2.2.2⟩
          rw [hmain.1 s hs, count_cons_calc]
          show (if s = s0 then ex s + 1 else ex s) + rest.count s =
            ex s + (rest.count s + if s = s0 then 1 else 0)
          by_cases hss : s = s0
          · rw [if_pos hss, if_pos hss]
            omega
          · rw [if_neg hss, if_neg hss]
            omega
        · rw [if_neg hrc]
          have hmain := ih
            { st with
              refCnt := setAt st.refCnt s0 (st.refCnt s0 + 1)
              queue := st.queue }
            (fun t => if t = s0 then ex t + 1 else ex t)
            (fun s hs => by
              show setAt st.refCnt s0 (st.refCnt s0 + 1) s =
                if s = s0 then ex s + 1 else ex s
              by_cases hss : s = s0
              · subst hss
                rw [if_pos rfl, setAt_self, h1 s hs]
              · rw [if_neg hss, setAt_other _ _ _ hss, h1 s hs])
            h2
            (fun s hmem => by
              have hy := h3 s hmem
              have hss : s ≠ s0 := by
                intro hcontra
                rw [hcontra] at hy
                exact hrc hy.2.2
              refine ⟨hy.1, hy.2.1, ?_⟩
              show setAt st.refCnt s0 (st.refCnt s0 + 1) s = 0
              rw [setAt_other _ _ _ hss]
              exact hy.2.2)
            (fun s hs hsN hz => by
              by_cases hss : s = s0
              · subst hss
                rw [show ({ st with
                    refCnt := setAt st.refCnt s (st.refCnt s + 1)
                    queue := st.queue } : Manager).refCnt s =
                    st.refCnt s + 1 from setAt_self _ _ _] at hz
                omega
              · rw [show ({ st with
                    refCnt := setAt st.refCnt s0 (st.refCnt s0 + 1)
                    queue := st.queue } : Manager).refCnt s =
                    st.refCnt s from setAt_other _ _ _ hss] at hz
                exact h4 s hs hsN hz)
          refine ⟨fun s hs => ?_, hmain.2.1, hmain.2.2.1, hmain.2.2.2⟩
          rw [hmain.1 s hs, count_cons_calc]
          show (if s = s0 then ex s + 1 else ex s) + rest.count s =
            ex s + (rest.count s + if s = s0 then 1 else 0)
          by_cases hss : s = s0
          · rw [if_pos hss, if_pos hss]
            omega
          · rw [if_neg hss, if_neg hss]
            omega

theorem popN_inv (n : Nat) (st : Manager) (ex : Slot → Nat)
    (h1 : ∀ s, 0 < s → st.refCnt s = ex s)
    (h2 : st.queue.Nodup)
    (h3 : ∀ s ∈ st.queue, 0 < s ∧ s < st.numBlocks ∧ st.refCnt s = 0)
    (h4 : ∀ s, 0 < s → s < st.numBlocks → st.refCnt s = 0 → s ∈ st.queue)
    (h6 : ∀ e ∈ st.index, 0 < e.2 ∧ e.2 < st.numBlocks) :
    (∀ s, 0 < s → (popN st n).1.refCnt s = ex s + (popN st n).2.count s) ∧
    (popN st n).1.queue.Nodup ∧
    (∀ s ∈ (popN st n).1.queue,
      0 < s ∧ s < st.numBlocks ∧ (popN st n).1.refCnt s = 0) ∧
    (∀ s, 0 < s → s < st.numBlocks → (popN st n).1.refCnt s = 0 →
      s ∈ (popN st n).1.queue) ∧
    (∀ e ∈ (popN st n).1.index, 0 < e.2 ∧ e.2 < st.numBlocks) ∧
    (∀ s ∈ (popN st n).2, 0 < s ∧ s < st.numBlocks) := by
  induction n generalizing st ex with
  | zero =>
      exact ⟨fun s hs => by simpa using h1 s hs, h2, h3, h4, h6,
        fun s hs => absurd hs (List.not_mem_nil s)⟩
  | succ n ih =>
      cases hq : st.queue with
      | nil =>
          have hp : popN st (n + 1) = (st, []) := by
            unfold popN popOne
            rw [hq]
          rw [hp]
          exact ⟨fun s hs => by simpa using h1 s hs, h2, h3, h4, h6,
            fun s hs => absurd hs (List.not_mem_nil s)⟩
      | cons s rest =>
          obtain ⟨fp1, idx1, ev1, hE0, hEsub0⟩ :=
            evictFp_shape { st with queue := rest } s
          have hE : evictFp { st with queue := rest } s =
              { st with
                queue := rest
                fps := fp1
                index := idx1
                events := ev1 } := hE0
          have hEsub : ∀ e ∈ idx1, e ∈ st.index := hEsub0
          have hnd := h2
          rw [hq] at hnd
          have hsnr : s ∉ rest := (List.nodup_cons.mp hnd).1
          have hrnd : rest.Nodup := (List.nodup_cons.mp hnd).2
          have hsProps := h3 s (by rw [hq]; exact List.mem_cons_self s rest)
          have hC : ({ evictFp { st with queue := rest } s with
              refCnt := setAt (evictFp { st with queue := rest } s).refCnt s 1 } :
                Manager) =
              { st with
                queue := rest
                fps := fp1
                index := idx1
                events := ev1
                refCnt := setAt st.refCnt s 1 } := by
            rw [hE]
          have hgoal : popN st (n + 1) =
              ((popN { evictFp { st with queue := rest } s with
                refCnt := setAt (evictFp { st with queue := rest } s).refCnt s 1 } n).1,
                s :: (popN { evictFp { st with queue := rest } s with
                  refCnt := setAt (evictFp { st with queue := rest } s).refCnt s 1 } n).2) := by
            conv_lhs => unfold popN popOne
            rw [hq]
          rw [hgoal, hC]
          dsimp only
          have hrec := ih
            { st with
              queue := rest
              fps := fp1
              index := idx1
              events := ev1
              refCnt := setAt st.refCnt s 1 }
            (fun t => if t = s then 1 else ex t)
            (fun t ht => by
              show setAt st.refCnt s 1 t = if t = s then 1 else ex t
              by_cases hts : t = s
              · subst hts
                rw [if_pos rfl, setAt_self]
              · rw [if_neg hts, setAt_other _ _ _ hts, h1 t ht])
            hrnd
            (fun t htm => by
              have hts : t ≠ s := fun hcontra => hsnr (hcontra ▸ htm)
              have hy := h3 t (by rw [hq]; exact List.mem_cons_of_mem s htm)
              refine ⟨hy.1, hy.2.1, ?_⟩
              show setAt st.refCnt s 1 t = 0
              rw [setAt_other _ _ _ hts]
              exact hy.2.2)
            (fun t ht htN hz => by
              by_cases hts : t = s
              · subst hts
                rw [show ({ st with
                    queue := rest
                    fps := fp1
                    index := idx1
                    events := ev1
                    refCnt := setAt st.refCnt t 1 } : Manager).refCnt t = 1 from
                  setAt_self _ _ _] at hz
                exact absurd hz one_ne_zero
              · rw [show ({ st with
                    queue := rest
                    fps := fp1
                    index := idx1
                    events := ev1
                    refCnt := setAt st.refCnt s 1 } : Manager).refCnt t =
                    st.refCnt t from setAt_other _ _ _ hts] at hz
                have hmem := h4 t ht htN hz
                rw [hq] at hmem
                show t ∈ rest
                rcases List.mem_cons.mp hmem with hcontra | hok
                · exact absurd hcontra hts
                · exact hok)
            (fun e he => h6 e (hEsub e he))
          refine ⟨fun t ht => ?_, hrec.2.1, hrec.2.2.1, hrec.2.2.2.1,
            hrec.2.2.2.2.1, fun t htm => ?_⟩
          · have hx := hrec.1 t ht
            rw [count_cons_calc, hx]
            beta_reduce
            by_cases hts : t = s
            · subst hts
              have hex : ex t = 0 := by
                have h0 := h1 t ht
                rw [hsProps.2.2] at h0
                omega
              rw [if_pos rfl, if_pos rfl, hex]
              omega
            · rw [if_neg hts, if_neg hts]
              omega
          · rcases List.mem_cons.mp htm with rfl | hok
            · exact ⟨hsProps.1, hsProps.2.1⟩
            · exact hrec.2.2.2.2.2 t hok

theorem drawGroups_inv (ns : List Nat) (st : Manager) (ex : Slot → Nat)
    (h1 : ∀ s, 0 < s → st.refCnt s = ex s)
    (h2 : st.queue.Nodup)
    (h3 : ∀ s ∈ st.queue, 0 < s ∧ s < st.numBlocks ∧ st.refCnt s = 0)
    (h4 : ∀ s, 0 < s → s < st.numBlocks → st.refCnt s = 0 → s ∈ st.queue)
    (h6 : ∀ e ∈ st.index, 0 < e.2 ∧ e.2 < st.numBlocks) :
    (∀ s, 0 < s → (drawGroups st ns).1.refCnt s =
      ex s + (drawGroups st ns).2.flatten.count s) ∧
    (drawGroups st ns).1.queue.Nodup ∧
    (∀ s ∈ (drawGroups st ns).1.queue,
      0 < s ∧ s < st.numBlocks ∧ (drawGroups st ns).1.refCnt s = 0) ∧
    (∀ s, 0 < s → s < st.numBlocks → (drawGroups st ns).1.refCnt s = 0 →
      s ∈ (drawGroups st ns).1.queue) ∧
    (∀ e ∈ (drawGroups st ns).1.index, 0 < e.2 ∧ e.2 < st.numBlocks) ∧
    (∀ L ∈ (drawGroups st ns).2, ∀ s ∈ L, 0 < s ∧ s < st.numBlocks) ∧
    (drawGroups st ns).2.length = ns.length := by
  induction ns generalizing st ex with
  | nil =>
      exact ⟨fun s hs => by simpa using h1 s hs, h2, h3, h4, h6,
        fun L hL => absurd hL (List.not_mem_nil L), rfl⟩
  | cons n ns ih =>
      have hpn := popN_inv n st ex h1 h2 h3 h4 h6
      obtain ⟨rc1, q1, fp1, idx1, ev1, hsh⟩ := popN_shape n st
      rw [hsh] at hpn
      have hrec := ih
        { st with refCnt := rc1, queue := q1, fps := fp1, index := idx1, events := ev1 }
        (fun t => ex t + (popN st n).2.count t)
        hpn.1 hpn.2.1 hpn.2.2.1 hpn.2.2.2.1 hpn.2.2.2.2.1
      have hd : drawGroups st (n :: ns) =
          ((drawGroups (popN st n).1 ns).1,
            (popN st n).2 :: (drawGroups (popN st n).1 ns).2) := rfl
      rw [hd, hsh]
      dsimp only
      refine ⟨fun t ht => ?_, hrec.2.1, hrec.2.2.1, hrec.2.2.2.1,
        hrec.2.2.2.2.1, fun L hL => ?_, ?_⟩
      · have hx := hrec.1 t ht
        rw [List.flatten_cons, List.count_append, hx]
        beta_reduce
        omega
      · rcases List.mem_cons.mp hL with rfl | hok
        · exact hpn.2.2.2.2.2
        · exact hrec.2.2.2.2.2.1 L hok
      · show ((drawGroups _ ns).2).length + 1 = ns.length + 1
        rw [hrec.2.2.2.2.2.2]

theorem free_fold_inv (slots : List Slot) (st : Manager) (base : Slot → Nat)
    (h1 : ∀ s, 0 < s → st.refCnt s = base s + slots.count s)
    (h2 : st.queue.Nodup)
    (h3 : ∀ s ∈ st.queue, 0 < s ∧ s < st.numBlocks ∧ st.refCnt s = 0)
    (h4 : ∀ s, 0 < s → s < st.numBlocks → st.refCnt s = 0 → s ∈ st.queue)
    (hN : ∀ s ∈ slots, s < st.numBlocks) :
    (∀ s, 0 < s → (slots.foldl freeOne st).refCnt s = base s) ∧
    (slots.foldl freeOne st).queue.Nodup ∧
    (∀ s ∈ (slots.foldl freeOne st).queue,
      0 < s ∧ s < st.numBlocks ∧ (slots.foldl freeOne st).refCnt s = 0) ∧
    (∀ s, 0 < s → s < st.numBlocks → (slots.foldl freeOne st).refCnt s = 0 →
      s ∈ (slots.foldl freeOne st).queue) := by
  induction slots generalizing st base with
  | nil =>
      refine ⟨fun s hs => ?_, h2, h3, h4⟩
      simpa using h1 s hs
  | cons s0 rest ih =>
      rw [List.foldl_cons]
      by_cases hs0 : s0 = 0
      · subst hs0
        have hf0 : freeOne st 0 = st := by
          unfold freeOne
          simp
        rw [hf0]
        exact ih st base
          (fun s hs => by
            rw [h1 s hs, count_cons_calc, if_neg (Nat.pos_iff_ne_zero.mp hs)]
            omega)
          h2 h3 h4 (fun s hs => hN s (List.mem_cons_of_mem 0 hs))
      · have hp0 : 0 < s0 := Nat.pos_of_ne_zero hs0
        have hcnt : st.refCnt s0 = base s0 + rest.count s0 + 1 := by
          rw [h1 s0 hp0, count_cons_calc, if_pos rfl]
          omega
        have hT : freeOne st s0 = { st with
            refCnt := setAt st.refCnt s0 (st.refCnt s0 - 1)
            queue := if st.refCnt s0 = 1 then st.queue ++ [s0] else st.queue } := by
          unfold freeOne
          rw [if_neg hs0]
        rw [hT]
        by_cases hrc : st.refCnt s0 = 1
        · rw [if_pos hrc]
          have hbz : base s0 = 0 ∧ rest.count s0 = 0 := by
            rw [hcnt] at hrc
            omega
          have hnotq : s0 ∉ st.queue := by
            intro hmem
            have := (h3 s0 hmem).2.2
            omega
          exact ih
            { st with
              refCnt := setAt st.refCnt s0 (st.refCnt s0 - 1)
              queue := st.queue ++ [s0] }
            base
            (fun s hs => by
              show setAt st.refCnt s0 (st.refCnt s0 - 1) s = base s + rest.count s
              by_cases hss : s = s0
              · subst hss
                rw [setAt_self, hcnt, hbz.1, hbz.2]
              · rw [setAt_other _ _ _ hss, h1 s hs, count_cons_calc, if_neg hss]
                omega)
            (by
              rw [List.nodup_append]
              exact ⟨h2, List.nodup_singleton s0,
                fun a ha hb => hnotq ((List.mem_singleton.mp hb) ▸ ha)⟩)
            (fun s hmem => by
              rcases List.mem_append.mp hmem with hin | hone
              · have hy := h3 s hin
                have hss : s ≠ s0 := fun hcontra => hnotq (hcontra ▸ hin)
                refine ⟨hy.1, hy.2.1, ?_⟩
                show setAt st.refCnt s0 (st.refCnt s0 - 1) s = 0
                rw [setAt_other _ _ _ hss]
                exact hy.2.2
              · rcases List.mem_singleton.mp hone with rfl
                refine ⟨hp0, hN s (List.mem_cons_self s rest), ?_⟩
                show setAt st.refCnt s (st.refCnt s - 1) s = 0
                rw [setAt_self, hrc])
            (fun s hs hsN hz => by
              by_cases hss : s = s0
              · subst hss
                exact List.mem_append.mpr (Or.inr (List.mem_singleton.mpr rfl))
              · rw [show ({ st with
                    refCnt := setAt st.refCnt s0 (st.refCnt s0 - 1)
                    queue := st.queue ++ [s0] } : Manager).refCnt s =
                    st.refCnt s from setAt_other _ _ _ hss] at hz
                exact List.mem_append.mpr (Or.inl (h4 s hs hsN hz)))
            (fun s hs => hN s (List.mem_cons_of_mem s0 hs))
        · rw [if_neg hrc]
          have hge : 2 ≤ st.refCnt s0 := by
            omega
          exact ih
            { st with
              refCnt := setAt st.refCnt s0 (st.refCnt s0 - 1)
              queue := st.queue }
            base
            (fun s hs => by
              show setAt st.refCnt s0 (st.refCnt s0 - 1) s = base s + rest.count s
              by_cases hss : s = s0
              · subst hss
                rw [setAt_self, hcnt]
                omega
              · rw [setAt_other _ _ _ hss, h1 s hs, count_cons_calc, if_neg hss]
                omega)
            h2
            (fun s hmem => by
              have hy := h3 s hmem
              have hss : s ≠ s0 := by
                intro hcontra
                rw [hcontra] at hy
                omega
              refine ⟨hy.1, hy.2.1, ?_⟩
              show setAt st.refCnt s0 (st.refCnt s0 - 1) s = 0
              rw [setAt_other _ _ _ hss]
              exact hy.2.2)
            (fun s hs hsN hz => by
              by_cases hss : s = s0
              · subst hss
                rw [show ({ st with
                    refCnt := setAt st.refCnt s (st.refCnt s - 1)
                    queue := st.queue } : Manager).refCnt s =
                    st.refCnt s - 1 from setAt_self _ _ _] at hz
                omega
              · rw [show ({ st with
                    refCnt := setAt st.refCnt s0 (st.refCnt s0 - 1)
                    queue := st.queue } : Manager).refCnt s =
                    st.refCnt s from setAt_other _ _ _ hss] at hz
                exact h4 s hs hsN hz)
            (fun s hs => hN s (List.mem_cons_of_mem s0 hs))

/-! ### Association-table lemmas -/

theorem lookup_mem {β : Type} (tbl : List (String × β)) (k : String) (v : β)
    (h : tbl.lookup k = some v) : (k, v) ∈ tbl := by
  induction tbl with
  | nil => simp [List.lookup] at h
  | cons e rest ih =>
      cases e with
      | mk a b =>
          by_cases hk : k = a
          · subst hk
            rw [show List.lookup k ((k, b) :: rest) = some b from by
              simp [List.lookup]] at h
            cases h
            exact List.mem_cons_self _ _
          · have hb : (k == a) = false := beq_eq_false_iff_ne.mpr hk
            rw [show List.lookup k ((a, b) :: rest) = List.lookup k rest from by
              simp [List.lookup, hb]] at h
            exact List.mem_cons_of_mem _ (ih h)

theorem lookup_none_of_keys {β : Type} (tbl : List (String × β)) (k : String)
    (h : ∀ e ∈ tbl, e.1 ≠ k) : tbl.lookup k = none := by
  induction tbl with
  | nil => rfl
  | cons e rest ih =>
      cases e with
      | mk a b =>
          have ha : a ≠ k := h (a, b) (List.mem_cons_self _ _)
          have hb : (k == a) = false := beq_eq_false_iff_ne.mpr (fun hc => ha hc.symm)
          rw [show List.lookup k ((a, b) :: rest) = List.lookup k rest from by
            simp [List.lookup, hb]]
          exact ih (fun e he => h e (List.mem_cons_of_mem _ he))

theorem removeEntry_eq_self {β : Type} (tbl : List (String × β)) (k : String)
    (h : ∀ e ∈ tbl, e.1 ≠ k) : removeEntry tbl k = tbl := by
  unfold removeEntry
  rw [List.filter_eq_self]
  intro e he
  simp [h e he]

theorem removeEntry_sub {β : Type} (tbl : List (String × β)) (k : String) :
    ∀ e ∈ removeEntry tbl k, e ∈ tbl :=
  fun e he => (List.mem_filter.mp he).1

theorem removeEntry_keys_nodup {β : Type} (tbl : List (String × β)) (k : String)
    (hnd : (tbl.map Prod.fst).Nodup) :
    ((removeEntry tbl k).map Prod.fst).Nodup :=
  ((List.filter_sublist tbl).map Prod.fst).nodup hnd

theorem setEntry_keys_nodup {β : Type} (tbl : List (String × β)) (k : String)
    (v : β) (hnd : (tbl.map Prod.fst).Nodup) :
    ((setEntry tbl k v).map Prod.fst).Nodup := by
  unfold setEntry
  rw [List.map_cons, List.nodup_cons]
  constructor
  · intro hmem
    rcases List.mem_map.mp hmem with ⟨e, he, hek⟩
    have hx := List.mem_filter.mp he
    have : e.1 ≠ k := by simpa using hx.2
    exact this hek
  · exact ((List.filter_sublist tbl).map Prod.fst).nodup hnd

theorem setEntry_cases {β : Type} (tbl : List (String × β)) (k : String)
    (v : β) : ∀ e ∈ setEntry tbl k v, e = (k, v) ∨ e ∈ tbl := by
  intro e he
  rcases List.mem_cons.mp he with rfl | hrest
  · exact Or.inl rfl
  · exact Or.inr ((List.mem_filter.mp hrest).1)

theorem sum_removeEntry (tbl : List (String × List (List Slot))) (k : String)
    (f : List (List Slot) → Nat) (hnd : (tbl.map Prod.fst).Nodup) :
    (tbl.map (fun e => f e.2)).sum =
      ((removeEntry tbl k).map (fun e => f e.2)).sum +
        ((tbl.lookup k).map f).getD 0 := by
  induction tbl with
  | nil => simp [removeEntry, List.lookup]
  | cons e rest ih =>
      cases e with
      | mk a b =>
          have hnd' : (rest.map Prod.fst).Nodup := (List.nodup_cons.mp hnd).2
          have hknot : a ∉ rest.map Prod.fst := (List.nodup_cons.mp hnd).1
          by_cases hk : a = k
          · subst hk
            have hkeys : ∀ e ∈ rest, e.1 ≠ a := by
              intro e he hcontra
              exact hknot (List.mem_map.mpr ⟨e, he, hcontra⟩)
            rw [show List.lookup a ((a, b) :: rest) = some b from by
              simp [List.lookup]]
            rw [show removeEntry ((a, b) :: rest) a = rest from by
              unfold removeEntry
              rw [List.filter_cons, if_neg (by simp)]
              exact removeEntry_eq_self rest a hkeys]
            rw [List.map_cons, List.sum_cons]
            simp only [Option.map_some', Option.getD_some]
            omega
          · have hb : (k == a) = false := beq_eq_false_iff_ne.mpr
              (fun hc => hk hc.symm)
            rw [show List.lookup k ((a, b) :: rest) = List.lookup k rest from by
              simp [List.lookup, hb]]
            rw [show removeEntry ((a, b) :: rest) k =
                (a, b) :: removeEntry rest k from by
              unfold removeEntry
              rw [List.filter_cons, if_pos (by simp [hk])]]
            rw [List.map_cons, List.sum_cons, List.map_cons, List.sum_cons,
              ih hnd']
            dsimp only
            omega

theorem sum_setEntry (tbl : List (String × List (List Slot))) (k : String)
    (v : List (List Slot)) (f : List (List Slot) → Nat) :
    ((setEntry tbl k v).map (fun e => f e.2)).sum =
      f v + ((removeEntry tbl k).map (fun e => f e.2)).sum := by
  unfold setEntry removeEntry
  rw [List.map_cons, List.sum_cons]

/-- Membership of the initial (and reset) free queue. -/
theorem mem_initQueue (N s : Nat) : s ∈ (List.range N).drop 1 ↔ 0 < s ∧ s < N := by
  cases N with
  | zero => simp
  | succ n =>
      rw [List.range_succ_eq_map]
      show s ∈ List.map Nat.succ (List.range n) ↔ _
      rw [List.mem_map]
      constructor
      · rintro ⟨a, ha, rfl⟩
        have := List.mem_range.mp ha
        omega
      · rintro ⟨h0, hN⟩
        exact ⟨s - 1, List.mem_range.mpr (by omega), by omega⟩

theorem initQueue_nodup (N : Nat) : ((List.range N).drop 1).Nodup :=
  (List.drop_sublist 1 (List.range N)).nodup (List.nodup_range N)

/-! ### Per-operation invariant preservation -/

theorem wf_getComputed (st : Manager) (r : Request) (h : WF st) :
    WF (getComputedBlocks st r).2 := by
  have hshape : (getComputedBlocks st r).2 =
      { st with reqHashTbl :=
          if r.skipCaching || !st.enableCaching then setEntry st.reqHashTbl r.reqId []
          else setEntry st.reqHashTbl r.reqId (reqHashes st.blockSize r) } := by
    unfold getComputedBlocks
    split
    · rfl
    · rfl
  rw [hshape]
  exact ⟨h.w1, h.w2, h.w3, h.w4, h.w5, h.w6, h.w7, h.w8⟩

theorem wf_takeEvents (st : Manager) (h : WF st) : WF (takeEvents st).2 :=
  ⟨h.w1, h.w2, h.w3, h.w4, h.w5, h.w6, h.w7, h.w8⟩

theorem wf_reset (st : Manager) (h : WF st) : WF (resetPrefixCache st).1 := by
  unfold resetPrefixCache
  split
  · next hall =>
      refine ⟨h.w1, initQueue_nodup st.numBlocks, ?_, ?_, h.w5, ?_, h.w7, h.w8⟩
      · intro s hmem
        have hx := (mem_initQueue st.numBlocks s).mp hmem
        exact ⟨hx.1, hx.2, hall s hx.2 hx.1⟩
      · intro s hs hsN _
        exact (mem_initQueue st.numBlocks s).mpr ⟨hs, hsN⟩
      · intro e he
        exact absurd he (List.not_mem_nil e)
  · exact h

theorem wf_free (st : Manager) (rid : String) (h : WF st) : WF (freeReq st rid) := by
  have hL : ∀ s ∈ (((st.reqBlocks.lookup rid).getD []).flatten.reverse : List Slot),
      s < st.numBlocks := by
    intro s hs
    rw [List.mem_reverse] at hs
    rcases List.mem_flatten.mp hs with ⟨L, hLmem, hsL⟩
    cases hlk : st.reqBlocks.lookup rid with
    | none =>
        rw [hlk] at hLmem
        exact absurd hLmem (List.not_mem_nil L)
    | some v =>
        rw [hlk] at hLmem
        exact h.w5 (rid, v) (lookup_mem _ _ _ hlk) L hLmem s hsL
  have hcnt : ∀ s, 0 < s → st.refCnt s =
      totalMult { st with
        reqBlocks := removeEntry st.reqBlocks rid
        reqHashTbl := removeEntry st.reqHashTbl rid } s +
      (((st.reqBlocks.lookup rid).getD []).flatten.reverse).count s := by
    intro s hs
    rw [h.w1 s hs]
    show (st.reqBlocks.map (fun e => e.2.flatten.count s)).sum =
      ((removeEntry st.reqBlocks rid).map (fun e => e.2.flatten.count s)).sum + _
    rw [sum_removeEntry st.reqBlocks rid (fun v => v.flatten.count s) h.w7,
      List.count_reverse]
    cases hlk : st.reqBlocks.lookup rid with
    | none => simp
    | some v => simp
  have hmain := free_fold_inv (((st.reqBlocks.lookup rid).getD []).flatten.reverse)
    { st with
      reqBlocks := removeEntry st.reqBlocks rid
      reqHashTbl := removeEntry st.reqHashTbl rid }
    (fun s => totalMult { st with
      reqBlocks := removeEntry st.reqBlocks rid
      reqHashTbl := removeEntry st.reqHashTbl rid } s)
    hcnt h.w2 h.w3 h.w4 hL
  obtain ⟨rcF, qF, hsh⟩ := free_foldl_shape
    (((st.reqBlocks.lookup rid).getD []).flatten.reverse)
    { st with
      reqBlocks := removeEntry st.reqBlocks rid
      reqHashTbl := removeEntry st.reqHashTbl rid }
  have hgoal : freeReq st rid =
      (((st.reqBlocks.lookup rid).getD []).flatten.reverse).foldl freeOne
        { st with
          reqBlocks := removeEntry st.reqBlocks rid
          reqHashTbl := removeEntry st.reqHashTbl rid } := rfl
  rw [hgoal, hsh]
  rw [hsh] at hmain
  refine ⟨hmain.1, hmain.2.1, hmain.2.2.1, hmain.2.2.2, ?_, h.w6, ?_, ?_⟩
  · intro e he L hLm s hsL
    exact h.w5 e (removeEntry_sub _ _ e he) L hLm s hsL
  · exact removeEntry_keys_nodup _ _ h.w7
  · intro e he
    exact h.w8 e (removeEntry_sub _ _ e he)

/-! ### Allocation accounting helpers -/

theorem flatten_map_nil {α : Type} (gs : List α) :
    (gs.map (fun _ => ([] : List Slot))).flatten = [] := by
  induction gs with
  | nil => rfl
  | cons g rest ih => simp [ih]

theorem count_allocLists (G : Nat) (A Bx C : List (List Slot)) (s : Slot)
    (hA : A.length = G) (hB : Bx.length = G) (hC : C.length = G) :
    (((List.range G).map
      (fun g => A.getD g [] ++ Bx.getD g [] ++ C.getD g [])).flatten).count s =
    A.flatten.count s + Bx.flatten.count s + C.flatten.count s := by
  induction G generalizing A Bx C with
  | zero =>
      have hA' : A = [] := List.length_eq_zero.mp hA
      have hB' : Bx = [] := List.length_eq_zero.mp hB
      have hC' : C = [] := List.length_eq_zero.mp hC
      subst hA' hB' hC'
      simp
  | succ n ih =>
      obtain ⟨a, A', rfl⟩ : ∃ a A', A = a :: A' := by
        cases A with
        | nil => simp at hA
        | cons a A' => exact ⟨a, A', rfl⟩
      obtain ⟨b, B', rfl⟩ : ∃ b B', Bx = b :: B' := by
        cases Bx with
        | nil => simp at hB
        | cons b B' => exact ⟨b, B', rfl⟩
      obtain ⟨c, C', rfl⟩ : ∃ c C', C = c :: C' := by
        cases C with
        | nil => simp at hC
        | cons c C' => exact ⟨c, C', rfl⟩
      rw [List.range_succ_eq_map, List.map_cons, List.flatten_cons]
      have hmap : (List.map Nat.succ (List.range n)).map
          (fun g => (a :: A').getD g [] ++ (b :: B').getD g [] ++ (c :: C').getD g []) =
          (List.range n).map
            (fun g => A'.getD g [] ++ B'.getD g [] ++ C'.getD g []) := by
        rw [List.map_map]
        apply List.map_congr_left
        intro g _
        simp [Function.comp, List.getD_cons_succ]
      rw [hmap]
      have hrec := ih A' B' C' (by simpa using hA) (by simpa using hB)
        (by simpa using hC)
      rw [List.count_append, hrec]
      simp only [List.getD_cons_zero, List.count_append, List.flatten_cons]
      omega

theorem getD_forall {α : Type} (L : List (List α)) (P : α → Prop)
    (h : ∀ l ∈ L, ∀ x ∈ l, P x) (g : Nat) : ∀ x ∈ L.getD g [], P x := by
  by_cases hg : g < L.length
  · rw [List.getD_eq_getElem _ _ hg]
    exact h _ (List.getElem_mem hg)
  · rw [List.getD_eq_default _ _ (by omega)]
    intro x hx
    exact absurd hx (List.not_mem_nil x)

theorem allocNeeds_length (st : Manager) (r : Request) (numNew numComputed : Nat)
    (hit : List (List Slot)) :
    (allocNeeds st r numNew numComputed hit).length = st.groups.length := by
  simp [allocNeeds]

theorem allocOwned_length (st : Manager) (r : Request) (h : WF st) :
    (allocOwned st r).length = st.groups.length := by
  unfold allocOwned
  cases hlk : st.reqBlocks.lookup r.reqId with
  | none => simp
  | some v =>
      have := h.w8 (r.reqId, v) (lookup_mem _ _ _ hlk)
      simpa using this

theorem allocOwned_count (st : Manager) (r : Request) (s : Slot) :
    (allocOwned st r).flatten.count s =
      ((st.reqBlocks.lookup r.reqId).map (fun v => v.flatten.count s)).getD 0 := by
  unfold allocOwned
  cases hlk : st.reqBlocks.lookup r.reqId with
  | none => simp [flatten_map_nil]
  | some v => simp

theorem allocOwned_lt (st : Manager) (r : Request) (h : WF st) :
    ∀ L ∈ allocOwned st r, ∀ s ∈ L, s < st.numBlocks := by
  unfold allocOwned
  cases hlk : st.reqBlocks.lookup r.reqId with
  | none =>
      intro L hL s hs
      simp only [Option.getD_none] at hL
      rcases List.mem_map.mp hL with ⟨g, _, rfl⟩
      exact absurd hs (List.not_mem_nil s)
  | some v =>
      intro L hL s hs
      simp only [Option.getD_some] at hL
      exact h.w5 (r.reqId, v) (lookup_mem _ _ _ hlk) L hL s hs

/-- Registering full blocks only rewrites fingerprints, the index and the
event batch; well-formedness survives as long as every newly indexed slot
comes from an in-range block list. -/
theorem wf_cacheFullAll (B : Nat) (toks : List Token) (hs : List Fp)
    (lists : List (List Slot)) (numFull : Nat) (st : Manager) (h : WF st)
    (hl : ∀ L ∈ lists, ∀ x ∈ L, x < st.numBlocks) :
    WF (cacheFullAll B toks hs lists numFull st) := by
  obtain ⟨fp, idx, ev, hsh, hsub⟩ := cacheFullAll_shape B toks hs lists numFull st
  rw [hsh]
  refine ⟨h.w1, h.w2, h.w3, h.w4, h.w5, ?_, h.w7, h.w8⟩
  intro e he
  rcases hsub e he with hold | ⟨hpos, L, hL, heL⟩
  · exact h.w6 e hold
  · exact ⟨hpos, hl L hL e.2 heL⟩

/-- Generic well-formedness of the state reached after an allocation: given
the accounting facts about the new refcounts, queue, index and per-request
lists, the updated state satisfies the invariant. -/
theorem wf_alloc_core (st : Manager) (k : String) (rc : Slot → Nat)
    (fp : Slot → Option FpG) (q : List Slot) (idx : List (FpG × Slot))
    (ev : List KVEvent) (lists : List (List Slot)) (h : WF st)
    (hrc : ∀ s, 0 < s → rc s + ((st.reqBlocks.lookup k).map
      (fun v => v.flatten.count s)).getD 0 =
      totalMult st s + lists.flatten.count s)
    (hq2 : q.Nodup)
    (hq3 : ∀ s ∈ q, 0 < s ∧ s < st.numBlocks ∧ rc s = 0)
    (hq4 : ∀ s, 0 < s → s < st.numBlocks → rc s = 0 → s ∈ q)
    (hidx : ∀ e ∈ idx, 0 < e.2 ∧ e.2 < st.numBlocks)
    (hl : ∀ L ∈ lists, ∀ x ∈ L, x < st.numBlocks)
    (hllen : lists.length = st.groups.length) :
    WF { st with
          refCnt := rc
          queue := q
          fps := fp
          index := idx
          events := ev
          reqBlocks := setEntry st.reqBlocks k lists } := by
  refine ⟨?_, hq2, hq3, hq4, ?_, hidx, ?_, ?_⟩
  · intro s hs
    show rc s = ((setEntry st.reqBlocks k lists).map (fun e => e.2.flatten.count s)).sum
    rw [sum_setEntry st.reqBlocks k lists (fun v => v.flatten.count s)]
    show rc s = lists.flatten.count s +
      ((removeEntry st.reqBlocks k).map (fun e => e.2.flatten.count s)).sum
    have hsplit := sum_removeEntry st.reqBlocks k (fun v => v.flatten.count s) h.w7
    beta_reduce at hsplit
    have hx := hrc s hs
    rw [show totalMult st s =
      (st.reqBlocks.map (fun e => e.2.flatten.count s)).sum from rfl] at hx
    omega
  · intro e he L hL x hx
    rcases setEntry_cases st.reqBlocks k lists e he with rfl | hmem
    · exact hl L hL x hx
    · exact h.w5 e hmem L hL x hx
  · exact setEntry_keys_nodup st.reqBlocks k lists h.w7
  · intro e he
    rcases setEntry_cases st.reqBlocks k lists e he with rfl | hmem
    · exact hllen
    · exact h.w8 e hmem

/-- `allocate_slots` preserves well-formedness whenever the hit blocks are
in range and come one list per group. -/
theorem wf_alloc (st : Manager) (r : Request) (numNew numComputed : Nat)
    (hit : List (List Slot)) (h : WF st)
    (hhN : ∀ s ∈ hit.flatten, s < st.numBlocks)
    (hlen : hit.length = st.groups.length) :
    WF (allocateSlots st r numNew numComputed hit).1 := by
  unfold allocateSlots
  split
  · exact h
  · show WF (allocOk st r numNew numComputed hit).1
    obtain ⟨rcT, qT, hshT⟩ := touch_foldl_shape hit.flatten st
    have htch := touch_fold_inv hit.flatten st (fun s => totalMult st s)
      h.w1 h.w2 h.w3 h.w4
    rw [hshT] at htch
    have hdraw := drawGroups_inv (allocNeeds st r numNew numComputed hit)
      { st with refCnt := rcT, queue := qT }
      (fun s => totalMult st s + hit.flatten.count s)
      htch.1 htch.2.1 htch.2.2.1 htch.2.2.2 h.w6
    obtain ⟨rcD, qD, fpD, idxD, evD, hshD0⟩ :=
      drawGroups_shape (allocNeeds st r numNew numComputed hit)
        { st with refCnt := rcT, queue := qT }
    have hshD : (drawGroups { st with refCnt := rcT, queue := qT }
        (allocNeeds st r numNew numComputed hit)).1 =
        { st with refCnt := rcD, queue := qD, fps := fpD, index := idxD, events := evD } :=
      hshD0
    rw [hshD] at hdraw
    have hOlen := allocOwned_length st r h
    have hNlen : (drawGroups { st with refCnt := rcT, queue := qT }
        (allocNeeds st r numNew numComputed hit)).2.length = st.groups.length :=
      (hdraw.2.2.2.2.2.2).trans (allocNeeds_length st r numNew numComputed hit)
    have hrcF : ∀ s, 0 < s → rcD s = totalMult st s + hit.flatten.count s +
        (drawGroups { st with refCnt := rcT, queue := qT }
          (allocNeeds st r numNew numComputed hit)).2.flatten.count s := by
      intro s hs
      have hx := hdraw.1 s hs
      beta_reduce at hx
      exact hx
    have hOlt := allocOwned_lt st r h
    have hHlt : ∀ L ∈ hit, ∀ x ∈ L, x < st.numBlocks := by
      intro L hL x hx
      exact hhN x (List.mem_flatten.mpr ⟨L, hL, hx⟩)
    have hNlt : ∀ L ∈ (drawGroups { st with refCnt := rcT, queue := qT }
        (allocNeeds st r numNew numComputed hit)).2, ∀ x ∈ L, x < st.numBlocks := by
      intro L hL x hx
      exact (hdraw.2.2.2.2.2.1 L hL x hx).2
    simp only [allocOk]
    rw [hshT, hshD]
    split
    · apply wf_cacheFullAll
      · refine wf_alloc_core st r.reqId rcD fpD qD idxD evD _ h ?_ hdraw.2.1
          hdraw.2.2.1 hdraw.2.2.2.1 hdraw.2.2.2.2.1 ?_ ?_
        · intro s hs
          rw [count_allocLists st.groups.length (allocOwned st r) hit _ s
            hOlen hlen hNlen]
          have hx := hrcF s hs
          have h2 := allocOwned_count st r s
          omega
        · intro L hL x hx
          rcases List.mem_map.mp hL with ⟨g, hg, rfl⟩
          rcases List.mem_append.mp hx with hx12 | hxc
          · rcases List.mem_append.mp hx12 with hxa | hxb
            · exact getD_forall (allocOwned st r) (fun y => y < st.numBlocks)
                hOlt g x hxa
            · exact getD_forall hit (fun y => y < st.numBlocks) hHlt g x hxb
          · exact getD_forall _ (fun y => y < st.numBlocks) hNlt g x hxc
        · simp
      · intro L hL x hx
        show x < st.numBlocks
        rcases List.mem_map.mp hL with ⟨g, hg, rfl⟩
        rcases List.mem_append.mp hx with hx12 | hxc
        · rcases List.mem_append.mp hx12 with hxa | hxb
          · exact getD_forall (allocOwned st r) (fun y => y < st.numBlocks)
              hOlt g x hxa
          · exact getD_forall hit (fun y => y < st.numBlocks) hHlt g x hxb
        · exact getD_forall _ (fun y => y < st.numBlocks) hNlt g x hxc
    · refine wf_alloc_core st r.reqId rcD fpD qD idxD evD _ h ?_ hdraw.2.1
        hdraw.2.2.1 hdraw.2.2.2.1 hdraw.2.2.2.2.1 ?_ ?_
      · intro s hs
        rw [count_allocLists st.groups.length (allocOwned st r) hit _ s
          hOlen hlen hNlen]
        have hx := hrcF s hs
        have h2 := allocOwned_count st r s
        omega
      · intro L hL x hx
        rcases List.mem_map.mp hL with ⟨g, hg, rfl⟩
        rcases List.mem_append.mp hx with hx12 | hxc
        · rcases List.mem_append.mp hx12 with hxa | hxb
          · exact getD_forall (allocOwned st r) (fun y => y < st.numBlocks)
              hOlt g x hxa
          · exact getD_forall hit (fun y => y < st.numBlocks) hHlt g x hxb
        · exact getD_forall _ (fun y => y < st.numBlocks) hNlt g x hxc
      · simp

/-- A freshly constructed manager is well-formed: no request holds blocks,
every non-null slot has refcount 0 and sits on the free queue in slot-id
order, and the index is empty. -/
theorem wf_init (N B : Nat) (gs : List GroupKind) (c e u : Bool) :
    WF (initManager N B gs c e u) := by
  refine ⟨?_, initQueue_nodup N, ?_, ?_, ?_, ?_, ?_, ?_⟩
  · intro s hs
    show (if s = 0 then 1 else 0) = 0
    rw [if_neg (Nat.pos_iff_ne_zero.mp hs)]
  · intro s hmem
    have hx := (mem_initQueue N s).mp hmem
    refine ⟨hx.1, hx.2, ?_⟩
    show (if s = 0 then 1 else 0) = 0
    rw [if_neg (Nat.pos_iff_ne_zero.mp hx.1)]
  · intro s hs hsN _
    exact (mem_initQueue N s).mpr ⟨hs, hsN⟩
  · intro e he
    exact absurd he (List.not_mem_nil e)
  · intro e he
    exact absurd he (List.not_mem_nil e)
  · exact List.nodup_nil
  · intro e he
    exact absurd he (List.not_mem_nil e)

/-- Every reachable state is well-formed. -/
theorem reaches_wf (st : Manager) (h : Reaches st) : WF st := by
  induction h with
  | init N B gs c e u => exact wf_init N B gs c e u
  | getStep st r _ ih => exact wf_getComputed st r ih
  | allocStep st r numNew numComputed hit _ hhN hlen ih =>
      exact wf_alloc st r numNew numComputed hit ih hhN hlen
  | freeStep st rid _ ih => exact wf_free st rid ih
  | resetStep st _ ih => exact wf_reset st ih
  | takeStep st _ ih => exact wf_takeEvents st ih

/-- C7: after every public operation (`get_computed_blocks`,
`allocate_slots`, `free`, `reset_prefix_cache`) - that is, in every state
reachable from construction through the public operations - every block
other than the null block has reference count zero if and only if it sits
on the free queue, and the free count (the queue length) equals the number
of zero-refcount non-null blocks. -/
theorem free_list_exact_invariant (st : Manager) (h : Reaches st) :
    FreeInv st := by
  have hwf := reaches_wf st h
  constructor
  · intro s hs hsN
    exact ⟨fun h0 => hwf.w4 s hs hsN h0, fun hq => (hwf.w3 s hq).2.2⟩
  · have hnd2 : ((List.range st.numBlocks).filter
        (fun s => decide (0 < s) && decide (st.refCnt s = 0))).Nodup :=
      (List.nodup_range st.numBlocks).filter _
    have hperm : st.queue.Perm ((List.range st.numBlocks).filter
        (fun s => decide (0 < s) && decide (st.refCnt s = 0))) := by
      apply (List.perm_ext_iff_of_nodup hwf.w2 hnd2).mpr
      intro s
      rw [List.mem_filter, List.mem_range]
      constructor
      · intro hq
        obtain ⟨h1, h2, h3⟩ := hwf.w3 s hq
        refine ⟨h2, ?_⟩
        simp [h1, h3]
      · rintro ⟨hlt, hp⟩
        simp only [Bool.and_eq_true, decide_eq_true_eq] at hp
        exact hwf.w4 s hp.1 hlt hp.2
    exact hperm.length_eq

/-- Witness for C7: the invariant holds concretely after allocating a fresh
8-token request on a 4-block pool reached from construction. -/
theorem free_list_exact_invariant_witness : FreeInv xA0.1 :=
  free_list_exact_invariant xA0.1
    (Reaches.allocStep xSt0 xReq0 8 0 [[]]
      (Reaches.init 4 4 [GroupKind.full] true false false)
      (by decide) (by decide))

end KVSpec
